import Mathlib

/-!
# kots: `pkg/upstream/replicated.go`

A shallow embedding of the release materialisation code of
`pkg/upstream/replicated.go`, and proofs about it.

Conventions of the embedding.

* A Go `string` is a `GoString`, the list of its characters.  The characters
  the code looks at (`/` and `.`) are ASCII, so reading a string by bytes or by
  characters gives the same result.  The texts of error messages, which the
  code never inspects, are kept as `String`.
* `os.PathSeparator` is `/` (its value on Unix).
* A Go function that can stop with a run-time panic returns `Go α`: either its
  result, or the `Fault` it stopped with.
* The `error` results of Go are values of `GoError`; an `Option GoError` is an
  `error` that may be nil.  A result `(value, error)` of which one is set is an
  `Except GoError`.
* A Go `map` is the list of its entries, in the order in which `range` visits
  them.  Go leaves that order open; the theorems below hold for every list,
  and so for every order.
* What the code calls outside the repository and the standard packages
  `strings` and `path` (the HTTP client, the registry, the decoder, the
  template engine) is a parameter of the embedding.
* Lines printed with `fmt.Printf` are left out.
-/

namespace Kots

/-- A Go string, as its sequence of characters. -/
abbrev GoString := List Char

/-- A Go byte slice. -/
abbrev Bytes := List UInt8

/-- The run-time panics that the embedded code can raise. -/
inductive Fault where
  /-- An index or a slice bound out of range. -/
  | outOfRange
  /-- A field read through a nil pointer. -/
  | nilDereference
  /-- Both operands of `==` are interface values holding the same
  uncomparable dynamic type. -/
  | uncomparable
  /-- A type assertion `x.(T)` on a value that is not a `T`. -/
  | typeAssertion
  /-- A call of `panic(err)`. -/
  | explicitPanic
  /-- Not a panic of Go: a bounded recursion of the embedding ran out of
  fuel.  The embedding gives every such recursion enough fuel. -/
  | fuel
  deriving DecidableEq, Repr

/-- The outcome of a Go call that may panic. -/
abbrev Go (α : Type) := Except Fault α

deriving instance DecidableEq for Except

/-! ## `strings` and `path` of the Go standard library -/

/-- Go `strings.Split(s, sep)` for a separator `sep` of one character: the
pieces of `s` between the separators, `n + 1` of them for `n` separators. -/
def stringsSplit (sep : Char) : GoString → List GoString
  | [] => [[]]
  | c :: cs =>
    if c = sep then [] :: stringsSplit sep cs
    else
      match stringsSplit sep cs with
      | [] => [[c]]
      | seg :: segs => (c :: seg) :: segs

/-- Go `strings.Join(elems, sep)`. -/
def stringsJoin (sep : GoString) : List GoString → GoString
  | [] => []
  | [a] => a
  | a :: b :: rest => a ++ sep ++ stringsJoin sep (b :: rest)

/-- The scan of `strings.LastIndex(s, c)`: `i` is the index of the next
character and `last` the index of the last `c` seen so far. -/
def lastIndexFrom (c : Char) : GoString → Nat → Int → Int
  | [], _, last => last
  | x :: xs, i, last => lastIndexFrom c xs (i + 1) (if x = c then (i : Int) else last)

/-- Go `strings.LastIndex(s, c)` for a string `c` of one character: the index of
the last `c` in `s`, or `-1`. -/
def stringsLastIndex (s : GoString) (c : Char) : Int :=
  lastIndexFrom c s 0 (-1)

/-- Go `strings.TrimPrefix(s, prefix)`. -/
def stringsTrimPrefix (s pre : GoString) : GoString :=
  if pre.isPrefixOf s then s.drop pre.length else s

/-- Go `path.Split(p)`: `i := strings.LastIndex(p, "/"); return p[:i+1], p[i+1:]`. -/
def pathSplit (p : GoString) : GoString × GoString :=
  let i := stringsLastIndex p '/'
  (p.take (i + 1).toNat, p.drop (i + 1).toNat)

/-- The backtracking of `path.Clean` at a `..` element, on the write index:
`for out.w > dotdot && out.index(out.w) != '/' { out.w-- }`, started at `w`. -/
def cleanBacktrack (buf : GoString) (dotdot : Nat) : Nat → Nat
  | 0 => 0
  | w + 1 =>
    if w + 1 > dotdot ∧ buf.get? (w + 1) ≠ some '/' then cleanBacktrack buf dotdot w
    else w + 1

/-- The main loop of `path.Clean`.  `rest` is the unread part `path[r:]`,
`out` the buffer written so far (`out.w` is its length), `dotdot` the index
where `..` must stop.  Every turn reads at least one character, so `fuel`
turns are enough for a `rest` of `fuel` characters. -/
def cleanLoop (rooted : Bool) : Nat → GoString → GoString → Nat → GoString
  | 0, _, out, _ => out
  | _ + 1, [], out, _ => out
  | fuel + 1, c :: r, out, dotdot =>
    if c = '/' then
      -- empty path element
      cleanLoop rooted fuel r out dotdot
    else if c = '.' ∧ (r = [] ∨ r.head? = some '/') then
      -- . element
      cleanLoop rooted fuel r out dotdot
    else if c = '.' ∧ r.head? = some '.' ∧ (r.tail = [] ∨ r.tail.head? = some '/') then
      -- .. element: remove to last /
      if out.length > dotdot then
        cleanLoop rooted fuel r.tail
          (out.take (cleanBacktrack out dotdot (out.length - 1))) dotdot
      else if rooted = false then
        let out2 := (if out.length > 0 then out ++ ['/'] else out) ++ ['.', '.']
        cleanLoop rooted fuel r.tail out2 out2.length
      else
        cleanLoop rooted fuel r.tail out dotdot
    else
      -- real path element: add slash if needed, copy element
      let out1 :=
        if (rooted = true ∧ out.length ≠ 1) ∨ (rooted = false ∧ out.length ≠ 0) then out ++ ['/']
        else out
      cleanLoop rooted fuel ((c :: r).dropWhile (fun x => x ≠ '/'))
        (out1 ++ (c :: r).takeWhile (fun x => x ≠ '/')) dotdot

/-- Go `path.Clean(path)`. -/
def pathClean (path : GoString) : GoString :=
  if path = [] then ['.']
  else
    let rooted : Bool := path.head? = some '/'
    let out :=
      if rooted then cleanLoop true path.length path.tail ['/'] 1
      else cleanLoop false path.length path [] 0
    if out.length = 0 then ['.'] else out

/-- Go `path.Join(elem...)`: the elements from the first non-empty one on, joined
with `/` and cleaned; the empty string when every element is empty. -/
def pathJoin : List GoString → GoString
  | [] => []
  | e :: rest =>
    if e ≠ [] then pathClean (stringsJoin ['/'] (e :: rest))
    else pathJoin rest

/-- The slice expression `xs[n:]`, which panics when `n > len(xs)`. -/
def sliceFrom {α : Type} (xs : List α) (n : Nat) : Go (List α) :=
  if n ≤ xs.length then .ok (xs.drop n) else .error .outOfRange

/-- The index expression `xs[0]`, which panics on an empty slice. -/
def indexZero {α : Type} (xs : List α) : Go α :=
  match xs with
  | [] => .error .outOfRange
  | x :: _ => .ok x

/-! ## Data model -/

/-- Go `Release`: the manifests are the entries of the Go map, in the order in
which `range` visits them. -/
structure Release where
  UpdateCursor : GoString
  VersionLabel : GoString
  Manifests : List (GoString × Bytes)
  deriving DecidableEq, Repr

/-- Go `UpstreamFile`. -/
structure UpstreamFile where
  Path : GoString
  Content : Bytes
  deriving DecidableEq, Repr

/-- The name of the reserved directory. -/
def userdata : GoString := "userdata".toList

/-! ## `releaseToFiles` -/

/-- Modelled from the spec: `util.CommonSlicePrefix`, of package `pkg/util`,
which is not among the sources.  The spec has it compute "the longest prefix
of segments common to" its two arguments, "segment-wise, not
character-wise". -/
def CommonSlicePrefix : List GoString → List GoString → List GoString
  | a :: as, b :: bs => if a = b then a :: CommonSlicePrefix as bs else []
  | _, _ => []

/-- The directory segments of a path, as every loop of `releaseToFiles` computes
them: `d, _ := path.Split(p); dirs := strings.Split(d, "/")`. -/
def dirSegments (p : GoString) : List GoString :=
  stringsSplit '/' (pathSplit p).1

/-- The first loop over the files of `releaseToFiles`: the files whose
`dirs[0]` is `userdata`, and the others, each in the order of the input. -/
def stashUserdata : List UpstreamFile → Go (List UpstreamFile × List UpstreamFile)
  | [] => .ok ([], [])
  | file :: rest => do
    let dirs0 ← indexZero (dirSegments file.Path)
    let (userdataFiles, withoutUserdataFiles) ← stashUserdata rest
    if dirs0 = userdata then .ok (file :: userdataFiles, withoutUserdataFiles)
    else .ok (userdataFiles, file :: withoutUserdataFiles)

/-- The second loop: `commonPrefix = util.CommonSlicePrefix(commonPrefix, dirs)`
for each file in turn. -/
def foldCommonPrefix (commonPrefix : List GoString) (files : List UpstreamFile) :
    List GoString :=
  files.foldl (fun cp file => CommonSlicePrefix cp (dirSegments file.Path)) commonPrefix

/-- The body of the third loop: the file with the common prefix cut from its
directory segments. -/
def cleanUpstreamFile (commonPrefix : List GoString) (file : UpstreamFile) : Go UpstreamFile := do
  let (d, f) := pathSplit file.Path
  let d2 ← sliceFrom (stringsSplit '/' d) commonPrefix.length
  .ok { file with Path := pathJoin [pathJoin d2, f] }

/-- The loop that opens `releaseToFiles`: one `UpstreamFile` for each entry
of `release.Manifests`. -/
def manifestFiles (release : Release) : List UpstreamFile :=
  release.Manifests.map (fun m => { Path := m.1, Content := m.2 })

/-- Go `releaseToFiles(release)`.  Its `error` result is always nil and is left
out. -/
def releaseToFiles (release : Release) : Go (List UpstreamFile) := do
  let upstreamFiles : List UpstreamFile := manifestFiles release
  -- Stash the user data for this search (we will readd at the end)
  let (userdataFiles, withoutUserdataFiles) ← stashUserdata upstreamFiles
  -- remove any common prefix from all files
  let upstreamFiles ←
    match withoutUserdataFiles with
    | [] => pure upstreamFiles
    | first :: _ => do
      let commonPrefix := foldCommonPrefix (dirSegments first.Path) withoutUserdataFiles
      withoutUserdataFiles.mapM (cleanUpstreamFile commonPrefix)
  .ok (upstreamFiles ++ userdataFiles)

/-- The value that `commonPrefix` has in `releaseToFiles` when its third loop
starts: the segments that this loop cuts from every file outside `userdata`
(none when there is no such file). -/
def removedPrefix (release : Release) : List GoString :=
  match stashUserdata (manifestFiles release) with
  | .ok (_, first :: rest) => foldCommonPrefix (dirSegments first.Path) (first :: rest)
  | _ => []

/-! ## Notions of the specification of `releaseToFiles` -/

/-- A path lies under the reserved subtree: it starts with `userdata/`. -/
def underUserdata (p : GoString) : Prop := (userdata ++ ['/']) <+: p

instance : DecidablePred underUserdata := fun p =>
  inferInstanceAs (Decidable ((userdata ++ ['/']) <+: p))

/-- The files of a release under the reserved subtree. -/
def reservedFiles (release : Release) : List UpstreamFile :=
  (manifestFiles release).filter (fun f => decide (underUserdata f.Path))

/-- The files of a release outside the reserved subtree. -/
def nonReservedFiles (release : Release) : List UpstreamFile :=
  (manifestFiles release).filter (fun f => !decide (underUserdata f.Path))

/-- A proper path element: not empty, without a slash, and neither `.` nor
`..`. -/
def ProperSegment (s : GoString) : Prop :=
  s ≠ [] ∧ '/' ∉ s ∧ s ≠ ['.'] ∧ s ≠ ['.', '.']

/-- A path in which every slash-separated segment is non-empty and is neither
`.` nor `..`: a relative path that `path.Clean` leaves as it is. -/
def CleanPath (p : GoString) : Prop :=
  ∀ s ∈ stringsSplit '/' p, s ≠ [] ∧ s ≠ ['.'] ∧ s ≠ ['.', '.']

instance : DecidablePred CleanPath := fun p =>
  inferInstanceAs (Decidable (∀ s ∈ stringsSplit '/' p, s ≠ [] ∧ s ≠ ['.'] ∧ s ≠ ['.', '.']))

/-- The text of a list of segments, each followed by a slash. -/
def slashed (segs : List GoString) : GoString :=
  segs.flatMap (fun s => s ++ ['/'])

/-- The text of a prefix of directory segments: each segment followed by a
slash.  The empty segment with which `strings.Split` ends the segments of a
directory stands for no text. -/
def prefixText (commonPrefix : List GoString) : GoString :=
  slashed (commonPrefix.filter (fun s => s ≠ []))

/-- The segment list `cp` is the longest common prefix of the lists `ds`: it is
a prefix of each, and every common prefix of them is a prefix of `cp`. -/
def IsLongestCommonPrefix (cp : List GoString) (ds : List (List GoString)) : Prop :=
  (∀ d ∈ ds, cp <+: d) ∧ ∀ q : List GoString, (∀ d ∈ ds, q <+: d) → q <+: cp

/-- A file with the first `n` of its directory segments removed and the rest
rejoined (`path.Join`) with its file name. -/
def stripSegments (n : Nat) (file : UpstreamFile) : UpstreamFile :=
  { file with
    Path := pathJoin [pathJoin ((dirSegments file.Path).drop n), (pathSplit file.Path).2] }

/-- The buffer of `path.Clean` once the elements `segs` have been copied after
`out`. -/
def joinOnto (out : GoString) : List GoString → GoString
  | [] => out
  | s :: rest => joinOnto ((if out.length ≠ 0 then out ++ ['/'] else out) ++ s) rest

/-! ## Example releases -/

/-- Two files outside `userdata`, one of them with an empty directory
segment. -/
def doubledSlashRelease : Release :=
  { UpdateCursor := [], VersionLabel := [],
    Manifests := [("a//x.yaml".toList, [1]), ("b/y.yaml".toList, [2])] }

/-- Files of two applications around a generated configuration file. -/
def mixedRelease : Release :=
  { UpdateCursor := [], VersionLabel := [],
    Manifests := [("app/a.yaml".toList, [1]), ("userdata/config.yaml".toList, [2]),
      ("app/b/c.yaml".toList, [3])] }

/-- A release whose only manifest is a generated configuration file. -/
def userdataOnlyRelease : Release :=
  { UpdateCursor := [], VersionLabel := [],
    Manifests := [("userdata/config.yaml".toList, [7])] }

/-- The files `a/b/x.yaml` and `a/c.yaml`. -/
def nestedRelease : Release :=
  { UpdateCursor := [], VersionLabel := [],
    Manifests := [("a/b/x.yaml".toList, [1]), ("a/c.yaml".toList, [2])] }

/-- The files `app1/x.yaml` and `app2/y.yaml`. -/
def siblingRelease : Release :=
  { UpdateCursor := [], VersionLabel := [],
    Manifests := [("app1/x.yaml".toList, [1]), ("app2/y.yaml".toList, [2])] }

/-! ## Errors -/

/-- The `error` values that reach this code.  Messages are kept as text; the
code never looks into them. -/
inductive GoError where
  /-- Go `imagedocker.ErrUnauthorizedForCredentials`, a package variable. -/
  | errUnauthorizedForCredentials
  /-- An error of a comparable dynamic type without `Cause()`, such as the
  results of `errors.New` and `errors.Errorf`, or a network timeout. -/
  | errorString (msg : String)
  /-- Go `errcode.Error`, with the `HTTPStatusCode` of the descriptor of its code. -/
  | errcodeError (httpStatusCode : Nat) (message : String)
  /-- Go `errcode.Errors`, a slice of errors. -/
  | errcodeErrors (errs : List GoError)
  /-- An error with a `Cause()` method, as `errors.Wrap` and `errors.Wrapf`
  build them. -/
  | wrapped (cause : GoError) (msg : String)
  deriving Repr

/-- A Go result `(value, error)` of which exactly one is set, from a call that
may also panic. -/
abbrev GoResult (α : Type) := Go (Except GoError α)

/-- Go `errors.Wrap(err, message)` of `github.com/pkg/errors`: nil when `err` is
nil. -/
def errorsWrap (err : Option GoError) (message : String) : Option GoError :=
  match err with
  | none => none
  | some e => some (.wrapped e message)

/-- Go `errors.Cause(err)` of `github.com/pkg/errors`: the innermost error that
has no `Cause()` method. -/
def GoError.Cause : GoError → GoError
  | .wrapped cause _ => cause.Cause
  | e => e

mutual
/-- Equality of two error values of comparable dynamic types. -/
def GoError.same : GoError → GoError → Bool
  | .errUnauthorizedForCredentials, .errUnauthorizedForCredentials => true
  | .errorString a, .errorString b => a == b
  | .errcodeError s a, .errcodeError t b => s == t && a == b
  | .errcodeErrors a, .errcodeErrors b => GoError.sameList a b
  | .wrapped c a, .wrapped d b => GoError.same c d && a == b
  | _, _ => false
/-- Equality of two lists of errors. -/
def GoError.sameList : List GoError → List GoError → Bool
  | [], [] => true
  | a :: as, b :: bs => GoError.same a b && GoError.sameList as bs
  | _, _ => false
end

/-- The comparison `a == b` of two `error` interface values: a run-time panic
when both hold the slice type `errcode.Errors`, which is not comparable. -/
def interfaceEq (a b : GoError) : Go Bool :=
  match a, b with
  | .errcodeErrors _, .errcodeErrors _ => .error .uncomparable
  | a, b => .ok (a.same b)

mutual
/-- The nesting depth of an error. -/
def GoError.depth : GoError → Nat
  | .errcodeErrors errs => GoError.depthList errs + 1
  | .wrapped cause _ => cause.depth + 1
  | _ => 1
/-- The greatest nesting depth in a list of errors. -/
def GoError.depthList : List GoError → Nat
  | [] => 0
  | e :: es => max e.depth (GoError.depthList es)
end

/-- A loop `for _, e := range xs { if f(e) { return true } }`: whether `f`
holds of some element, asking the elements in order and stopping at the first
for which it holds or panics. -/
def firstTrue {α : Type} (f : α → Go Bool) : List α → Go Bool
  | [] => .ok false
  | a :: as => do
    if ← f a then .ok true else firstTrue f as

/-- Go `isUnauthorized(err)`, with `fuel` bounding the depth of the recursion.
Each recursive call is on a member of `err` or on its cause, which are less
deep than `err`. -/
def isUnauthorizedFuel : Nat → GoError → Go Bool
  | 0, _ => .error .fuel
  | fuel + 1, err =>
    -- the code after the type switch
    let afterSwitch : Unit → Go Bool := fun _ => do
      let cause := err.Cause
      if ← interfaceEq cause err then .ok false
      else isUnauthorizedFuel fuel cause
    match err with
    -- err == imagedocker.ErrUnauthorizedForCredentials
    | .errUnauthorizedForCredentials => .ok true
    -- case errcode.Errors
    | .errcodeErrors errs => do
      if ← firstTrue (isUnauthorizedFuel fuel) errs then .ok true
      else afterSwitch ()
    -- case errcode.Error
    | .errcodeError httpStatusCode _ => .ok (decide (httpStatusCode = 401))
    | _ => afterSwitch ()

/-- Go `isUnauthorized(err)`. -/
def isUnauthorized (err : GoError) : Go Bool :=
  isUnauthorizedFuel err.depth err

/-! ## `FindPrivateImages` -/

/-- Go `Upstream`. -/
structure Upstream where
  URI : GoString
  Name : GoString
  Files : List UpstreamFile
  Type' : GoString
  UpdateCursor : GoString
  VersionLabel : GoString
  deriving DecidableEq, Repr

/-- Go `FindPrivateImagesOptions`, without its logger. -/
structure FindPrivateImagesOptions where
  RootDir : GoString
  CreateAppDir : Bool
  ReplicatedRegistry : GoString
  deriving DecidableEq, Repr

/-- Go `kustomizeimage.Image`; the code sets its `Name` only. -/
structure Image where
  Name : GoString
  deriving DecidableEq, Repr

/-- What `FindPrivateImages` calls outside this file. -/
structure Registry where
  /-- Go `image.GetImages(upstreamDir)`, of package `pkg/image`. -/
  GetImages : GoString → Except GoError (List GoString)
  /-- Go `imagedocker.ParseReference(s)`; a reference is kept as its text. -/
  ParseReference : GoString → Except GoError GoString
  /-- Go `ref.NewImage(ctx, nil)`, the probe without credentials: `none` when it
  succeeds, the error otherwise. -/
  NewImage : GoString → Option GoError

/-- The loop of `FindPrivateImages` over the images that are left, with the
`result` collected so far. -/
def findPrivateLoop (registry : Registry) : List GoString → List Image → GoResult (List Image)
  | [], result => .ok (.ok result)
  | upstreamImage :: rest, result =>
    -- ParseReference requires the // prefix
    match registry.ParseReference ("//".toList ++ upstreamImage) with
    | .error err =>
      .ok (.error (.wrapped err ("failed to parse image ref:" ++ String.mk upstreamImage)))
    | .ok ref =>
      match registry.NewImage ref with
      | none => findPrivateLoop registry rest result
      | some err =>
        match isUnauthorized err with
        | .error fault => .error fault
        | .ok false =>
          .ok (.error (.wrapped err ("failed to create image from ref:" ++ String.mk upstreamImage)))
        | .ok true => findPrivateLoop registry rest (result ++ [{ Name := upstreamImage }])

/-- The directory `upstreamDir` that `FindPrivateImages` computes from its
options. -/
def upstreamDir (u : Upstream) (options : FindPrivateImagesOptions) : GoString :=
  let rootDir := if options.CreateAppDir then pathJoin [options.RootDir, u.Name] else options.RootDir
  pathJoin [rootDir, "upstream".toList]

/-- Go `(u *Upstream) FindPrivateImages(options)`. -/
def FindPrivateImages (registry : Registry) (u : Upstream) (options : FindPrivateImagesOptions) :
    GoResult (List Image) :=
  match registry.GetImages (upstreamDir u options) with
  | .error err => .ok (.error (.wrapped err "failed to list upstream images"))
  | .ok upstreamImages => findPrivateLoop registry upstreamImages []

/-! ## Notions of the specification of `FindPrivateImages` -/

/-- A failure that is not an authorization failure and is no aggregate: its
chain of causes ends in a plain error, or in an error code whose HTTP status is
not 401. -/
def PlainFailure (x : GoError) : Prop :=
  (∃ msg, x.Cause = .errorString msg) ∨
    ∃ status msg, x.Cause = .errcodeError status msg ∧ status ≠ 401

/-- An error whose root cause is an authorization failure: the
unauthorized-for-credentials error of the registry or an error code whose HTTP
status is 401, given directly, beneath any number of wrapping layers, or as a
member of a multi-error aggregate, whatever the other members of the aggregate
are. -/
inductive AuthorizationFailure : GoError → Prop where
  | unauthorizedForCredentials : AuthorizationFailure .errUnauthorizedForCredentials
  | status401 (message : String) : AuthorizationFailure (.errcodeError 401 message)
  | wrapped (cause : GoError) (msg : String) :
      AuthorizationFailure cause → AuthorizationFailure (.wrapped cause msg)
  | member (before : List GoError) (e : GoError) (after : List GoError) :
      AuthorizationFailure e → AuthorizationFailure (.errcodeErrors (before ++ e :: after))

/-- An authorization failure that the scan of `isUnauthorized` reaches before
it meets an aggregate: an `AuthorizationFailure` in which, in every aggregate
on the way, the members that come before the authorization failure are plain
failures; those after it are arbitrary. -/
inductive LeadingAuthorizationFailure : GoError → Prop where
  | unauthorizedForCredentials : LeadingAuthorizationFailure .errUnauthorizedForCredentials
  | status401 (message : String) : LeadingAuthorizationFailure (.errcodeError 401 message)
  | wrapped (cause : GoError) (msg : String) :
      LeadingAuthorizationFailure cause → LeadingAuthorizationFailure (.wrapped cause msg)
  | member (before : List GoError) (e : GoError) (after : List GoError) :
      (∀ x ∈ before, PlainFailure x) → LeadingAuthorizationFailure e →
      LeadingAuthorizationFailure (.errcodeErrors (before ++ e :: after))

/-- Whether the anonymous probe of an image fails. -/
def probeFails (registry : Registry) (image : GoString) : Bool :=
  match registry.ParseReference ("//".toList ++ image) with
  | .ok ref => (registry.NewImage ref).isSome
  | .error _ => false

/-! ## Example registries -/

/-- An upstream with no files. -/
def exampleUpstream : Upstream :=
  { URI := [], Name := "app".toList, Files := [], Type' := "replicated".toList,
    UpdateCursor := [], VersionLabel := [] }

/-- Options naming a root directory. -/
def exampleOptions : FindPrivateImagesOptions :=
  { RootDir := "/tmp/kots".toList, CreateAppDir := true, ReplicatedRegistry := [] }

/-- The authorization failure of a registry beneath three wrapping layers. -/
def thriceWrappedUnauthorized : GoError :=
  .wrapped (.wrapped (.wrapped .errUnauthorizedForCredentials "pinging registry") "getting token")
    "creating image"

/-- An aggregate of a not-found error code and an unauthorized error code. -/
def aggregateWithUnauthorized : GoError :=
  .errcodeErrors [.errcodeError 404 "manifest unknown", .errcodeError 401 "authentication required"]

/-- An aggregate whose only member is a not-found error code. -/
def aggregateNotFound : GoError :=
  .errcodeErrors [.errcodeError 404 "manifest unknown"]

/-- An aggregate whose first member is the empty aggregate and whose second
member is an unauthorized error code. -/
def aggregateBehindAggregate : GoError :=
  .errcodeErrors [.errcodeErrors [], .errcodeError 401 "authentication required"]

/-- An aggregate whose first member is an aggregate of a not-found error code
and whose second member is the authorization failure of the registry. -/
def unauthorizedBehindNotFound : GoError :=
  .errcodeErrors [aggregateNotFound, .errUnauthorizedForCredentials]

/-- A registry that serves the first image to anyone and refuses the two
others for want of credentials. -/
def guardedRegistry : Registry :=
  { GetImages := fun _ =>
      .ok ["nginx:1.17".toList, "registry.example.com/api:2".toList,
        "registry.example.com/db:3".toList]
    ParseReference := fun s => .ok s
    NewImage := fun ref =>
      if ref = "//registry.example.com/api:2".toList then some thriceWrappedUnauthorized
      else if ref = "//registry.example.com/db:3".toList then some aggregateWithUnauthorized
      else none }

/-- A registry that does not know the image it is asked for. -/
def forgetfulRegistry : Registry :=
  { GetImages := fun _ => .ok ["registry.example.com/gone:1".toList]
    ParseReference := fun s => .ok s
    NewImage := fun _ => some aggregateNotFound }

/-- A registry that refuses its one image for want of credentials, with an
aggregate whose first member is itself an aggregate. -/
def nestingRegistry : Registry :=
  { GetImages := fun _ => .ok ["registry.example.com/api:2".toList]
    ParseReference := fun s => .ok s
    NewImage := fun _ => some aggregateBehindAggregate }

/-! ## URLs -/

/-- Go `url.Userinfo`. -/
structure Userinfo where
  username : GoString
  password : Option GoString
  deriving DecidableEq, Repr

/-- Go `url.URL`, a parsed URI.  `User` is `none` for a nil `*Userinfo`.
`Hostname`, `Port` and `RequestURI` hold the results of the methods
`u.Hostname()`, `u.Port()` and `u.RequestURI()` of `net/url`. -/
structure URL where
  Scheme : GoString
  User : Option Userinfo
  Hostname : GoString
  Port : GoString
  Path : GoString
  RequestURI : GoString
  deriving DecidableEq, Repr

/-- Go `(u *Userinfo) Username()`: the empty string for a nil receiver. -/
def Username (user : Option Userinfo) : GoString :=
  match user with
  | none => []
  | some u => u.username

/-- Go `ReplicatedUpstream`. -/
structure ReplicatedUpstream where
  Channel : Option GoString
  AppSlug : GoString
  VersionLabel : Option GoString
  Sequence : Option Int
  deriving DecidableEq, Repr

/-- Go `parseReplicatedURL(u)`. -/
def parseReplicatedURL (u : URL) : Except GoError ReplicatedUpstream :=
  let replicatedUpstream : ReplicatedUpstream :=
    { Channel := none, AppSlug := [], VersionLabel := none, Sequence := none }
  let replicatedUpstream :=
    if u.User ≠ none then
      if Username u.User ≠ [] then
        { replicatedUpstream with AppSlug := Username u.User, VersionLabel := some u.Hostname }
      else replicatedUpstream
    else replicatedUpstream
  let replicatedUpstream :=
    if replicatedUpstream.AppSlug = [] then
      let replicatedUpstream := { replicatedUpstream with AppSlug := u.Hostname }
      if u.Path ≠ [] then
        { replicatedUpstream with Channel := some (stringsTrimPrefix u.Path ['/']) }
      else replicatedUpstream
    else replicatedUpstream
  .ok replicatedUpstream

/-! ## Notions of the specification of `parseReplicatedURL` -/

/-- A path with its leading `/`, if it has one, removed. -/
def trimLeadingSlash : GoString → GoString
  | '/' :: rest => rest
  | p => p

/-- The URI `replicated://myapp/unstable`, parsed. -/
def channelURL : URL :=
  { Scheme := "replicated".toList, User := none, Hostname := "myapp".toList, Port := [],
    Path := "/unstable".toList, RequestURI := "/unstable".toList }

/-- The URI `replicated://label@myapp`, parsed. -/
def labelAtMyappURL : URL :=
  { Scheme := "replicated".toList, User := some { username := "label".toList, password := none },
    Hostname := "myapp".toList, Port := [], Path := [], RequestURI := "/".toList }

/-! ## Configuration values -/

/-- Go `m[k] = v` on a Go map: the entry of `k` is replaced where it stands, or
added. -/
def mapSet {ν : Type} (m : List (GoString × ν)) (k : GoString) (v : ν) : List (GoString × ν) :=
  match m with
  | [] => [(k, v)]
  | (k', v') :: rest => if k' = k then (k, v) :: rest else (k', v') :: mapSet rest k v

/-- Go `m[k]` on a Go map, `none` when `k` has no entry. -/
def mapGet {ν : Type} (m : List (GoString × ν)) (k : GoString) : Option ν :=
  match m with
  | [] => none
  | (k', v') :: rest => if k' = k then some v' else mapGet rest k

/-- Go `kotsv1beta1.ConfigItem`, with the fields that this file reads. -/
structure ConfigItem where
  Name : GoString
  Value : GoString
  deriving DecidableEq, Repr

/-- Go `kotsv1beta1.ConfigGroup`. -/
structure ConfigGroup where
  Name : GoString
  Items : List ConfigItem
  deriving DecidableEq, Repr

/-- Go `kotsv1beta1.Config`; `Groups` is `Spec.Groups`. -/
structure Config where
  Groups : List ConfigGroup
  deriving DecidableEq, Repr

/-- Go `kotsv1beta1.ConfigValues`: its `TypeMeta`, the `Name` of its
`ObjectMeta`, and the map `Spec.Values`. -/
structure ConfigValues where
  APIVersion : GoString
  Kind : GoString
  Name : GoString
  Values : List (GoString × GoString)
  deriving DecidableEq, Repr

/-- Go `builder.RenderTemplate(name, text)` of package `pkg/template`, for the
builder that `createEmptyConfigValues` sets up with the static context. -/
abbrev Renderer := GoString → GoString → Except GoError GoString

/-- The inner loop of `createEmptyConfigValues`, over the items of a group. -/
def renderItems (render : Renderer) :
    List ConfigItem → List (GoString × GoString) → Except GoError (List (GoString × GoString))
  | [], values => .ok values
  | item :: rest, values =>
    if item.Value ≠ [] then
      match render item.Name item.Value with
      | .error err => .error (.wrapped err "failed to render config item value")
      | .ok rendered => renderItems render rest (mapSet values item.Name rendered)
    else renderItems render rest values

/-- The outer loop of `createEmptyConfigValues`, over the groups. -/
def renderGroups (render : Renderer) :
    List ConfigGroup → List (GoString × GoString) → Except GoError (List (GoString × GoString))
  | [], values => .ok values
  | group :: rest, values =>
    match renderItems render group.Items values with
    | .error err => .error err
    | .ok values => renderGroups render rest values

/-- Go `createEmptyConfigValues(applicationName, config)`. -/
def createEmptyConfigValues (render : Renderer) (applicationName : GoString) (config : Config) :
    Except GoError ConfigValues :=
  match renderGroups render config.Groups [] with
  | .error err => .error err
  | .ok values =>
    .ok { APIVersion := "kots.io/v1beta1".toList, Kind := "ConfigValues".toList,
          Name := applicationName, Values := values }

/-! ## Notions of the specification of `createEmptyConfigValues` -/

/-- The items of a configuration schema, in the order of the schema. -/
def Config.items (config : Config) : List ConfigItem :=
  config.Groups.flatMap (fun g => g.Items)

/-- The last item named `k` among the items that carry a non-empty template. -/
def lastItemNamed (items : List ConfigItem) (k : GoString) : Option ConfigItem :=
  (items.filter (fun i => decide (i.Name = k ∧ i.Value ≠ []))).getLast?

/-- The rendered template of the last item named `k` that carries a non-empty
template, if there is such an item. -/
def lastRendered (render : Renderer) (items : List ConfigItem) (k : GoString) : Option GoString :=
  match lastItemNamed items k with
  | none => none
  | some item => (render item.Name item.Value).toOption

/-- A renderer that returns the text it is given. -/
def literalRenderer : Renderer := fun _ text => .ok text

/-- A schema with the single item `item`, whose template is `foo`. -/
def singleItemConfig : Config :=
  { Groups := [{ Name := "group".toList,
                 Items := [{ Name := "item".toList, Value := "foo".toList }] }] }

/-- A schema with two items of the same name. -/
def repeatedItemConfig : Config :=
  { Groups := [{ Name := "group".toList,
                 Items := [{ Name := "item".toList, Value := "foo".toList },
                           { Name := "item".toList, Value := "bar".toList }] }] }

/-! ## Licenses, requests and the world outside -/

/-- Go `kotsv1beta1.License`, with the fields of its `Spec` that this file
reads. -/
structure License where
  LicenseID : GoString
  Endpoint : GoString
  AppSlug : GoString
  deriving DecidableEq, Repr

/-- Go `kotsv1beta1.Application`: its `TypeMeta`, the `Name` of its `ObjectMeta`,
and the `Title` and `Icon` of its `Spec`. -/
structure Application where
  APIVersion : GoString
  Kind : GoString
  Name : GoString
  Title : GoString
  Icon : GoString
  deriving DecidableEq, Repr

/-- An `http.Request`: its method, its URL, and the headers set on it. -/
structure Request where
  Method : GoString
  URL : GoString
  Header : List (GoString × GoString)
  deriving DecidableEq, Repr

/-- An `http.Response`: its status code, its headers and its body. -/
structure Response where
  StatusCode : Nat
  Header : List (GoString × GoString)
  Body : Bytes
  deriving DecidableEq, Repr

/-- Go `resp.Header.Get(key)`: the empty string when the header is not set. -/
def headerGet (header : List (GoString × GoString)) (key : GoString) : GoString :=
  match mapGet header key with
  | some v => v
  | none => []

/-- The type flag of a tar header, as the code distinguishes them. -/
inductive TarType where
  | dir
  | reg
  | other
  deriving DecidableEq, Repr

/-- One turn of the tar reader: either `tarReader.Next()` fails, or it yields
a header, and `ioutil.ReadAll(tarReader)` then yields the content or fails.
The end of the list is `io.EOF`. -/
inductive TarStep where
  | failure (err : GoError)
  | entry (name : GoString) (typeflag : TarType) (content : Except GoError Bytes)

/-- A decoded manifest, as far as the code tells the kinds apart. -/
inductive RuntimeObject where
  | application (a : Application)
  | config (c : Config)
  | other

/-- Go `schema.GroupVersionKind`. -/
structure GroupVersionKind where
  Group : GoString
  Version : GoString
  Kind : GoString
  deriving DecidableEq, Repr

/-- What the code calls outside this file, beyond `strings` and `path`. -/
structure World where
  /-- Go `url.Parse`. -/
  urlParse : GoString → Except GoError URL
  /-- The check of `http.NewRequest` on a method and a URL: `none` when it
  accepts them. -/
  newRequest : GoString → GoString → Option GoError
  /-- Go `base64.StdEncoding.EncodeToString`. -/
  base64 : GoString → GoString
  /-- Go `http.DefaultClient.Do`. -/
  Do : Request → Except GoError Response
  /-- Go `gzip.NewReader` on a response body, and the turns of the tar reader on
  what it yields. -/
  gzipNewReader : Bytes → Except GoError (List TarStep)
  /-- Go `filepath.Walk` with the callback of `readReplicatedAppFromLocalPath`:
  the regular files below a directory, each with its content, or the first
  error. -/
  walk : GoString → Except GoError (List (GoString × Bytes))
  /-- Go `scheme.Codecs.UniversalDeserializer().Decode`. -/
  decode : Bytes → Except GoError (RuntimeObject × GroupVersionKind)
  /-- Go `builder.RenderTemplate` under the static context. -/
  render : Renderer
  /-- The YAML serializer on a license. -/
  encodeLicense : License → Except GoError Bytes
  /-- The YAML serializer on configuration values. -/
  encodeConfigValues : ConfigValues → Except GoError Bytes

/-! ## Fetching a release -/

/-- Go `(r *ReplicatedUpstream) getRequest(method, license)`. -/
def getRequest (w : World) (r : ReplicatedUpstream) (method : GoString)
    (license : Option License) : GoResult Request :=
  match license with
  | none => .error .nilDereference
  | some license =>
    match w.urlParse license.Endpoint with
    | .error err => .ok (.error (.wrapped err "failed to parse endpoint from license"))
    | .ok u =>
      let hostname :=
        if u.Port ≠ [] then u.Hostname ++ ":".toList ++ u.Port else u.Hostname
      let url := u.Scheme ++ "://".toList ++ hostname ++ "/release/".toList ++ license.AppSlug
      let url :=
        match r.Channel with
        | some channel => url ++ "/".toList ++ channel
        | none => url
      match w.newRequest method url with
      | some err => .ok (.error (.wrapped err "failed to call newrequest"))
      | none =>
        .ok (.ok
          { Method := method, URL := url,
            Header := [("Authorization".toList, "Basic ".toList ++
              w.base64 (license.LicenseID ++ ":".toList ++ license.LicenseID))] })

/-- Go `getSuccessfulHeadResponse(replicatedUpstream, license)`.  Both results are
given, as the code can return both of them nil. -/
def getSuccessfulHeadResponse (w : World) (replicatedUpstream : ReplicatedUpstream)
    (license : Option License) : Go (Option License × Option GoError) :=
  match getRequest w replicatedUpstream "HEAD".toList license with
  | .error fault => .error fault
  | .ok (.error err) => .ok (none, errorsWrap (some err) "failed to create http request")
  | .ok (.ok headReq) =>
    match w.Do headReq with
    | .error err => .ok (none, errorsWrap (some err) "failed to execute head request")
    | .ok headResp =>
      -- here `err` is nil
      let err : Option GoError := none
      if headResp.StatusCode = 401 then
        .ok (none, errorsWrap err "license was not accepted")
      else if headResp.StatusCode ≥ 400 then
        .ok (none, some (.errorString
          ("expected result from head request: " ++ toString headResp.StatusCode)))
      else .ok (license, none)

/-- Go `strings.TrimLeft(s, cutset)` for a cutset of one character. -/
def stringsTrimLeft (s : GoString) (c : Char) : GoString :=
  s.dropWhile (fun x => x = c)

/-- Go `readReplicatedAppFromLocalPath(localPath)`. -/
def readReplicatedAppFromLocalPath (w : World) (localPath : GoString) : Except GoError Release :=
  match w.walk localPath with
  | .error err => .error (.wrapped err "failed to walk local path")
  | .ok files =>
    .ok { UpdateCursor := "-1".toList, VersionLabel := [],
          Manifests := files.foldl
            (fun manifests file =>
              -- remove localpath prefix
              let appPath := stringsTrimPrefix file.1 localPath
              let appPath := stringsTrimLeft appPath '/'
              mapSet manifests appPath file.2) [] }

/-- The loop of `downloadReplicatedApp` over the entries of the archive. -/
def readTar : List TarStep → List (GoString × Bytes) → Except GoError (List (GoString × Bytes))
  | [], manifests => .ok manifests
  | .failure err :: _, _ => .error (.wrapped err "failed to get next file from reader")
  | .entry name typeflag content :: rest, manifests =>
    match typeflag with
    | .dir => readTar rest manifests
    | .reg =>
      match content with
      | .error err => .error (.wrapped err "failed to read file from tar")
      | .ok content => readTar rest (mapSet manifests name content)
    | .other => readTar rest manifests

/-- Go `downloadReplicatedApp(replicatedUpstream, license)`. -/
def downloadReplicatedApp (w : World) (replicatedUpstream : ReplicatedUpstream)
    (license : Option License) : GoResult Release :=
  match getRequest w replicatedUpstream "GET".toList license with
  | .error fault => .error fault
  | .ok (.error err) => .ok (.error (.wrapped err "failed to create http request"))
  | .ok (.ok getReq) =>
    match w.Do getReq with
    | .error err => .ok (.error (.wrapped err "failed to execute get request"))
    | .ok getResp =>
      if getResp.StatusCode ≥ 400 then
        .ok (.error (.errorString
          ("expected result from get request: " ++ toString getResp.StatusCode)))
      else
        let updateCursor := headerGet getResp.Header "X-Replicated-Sequence".toList
        let versionLabel := headerGet getResp.Header "X-Replicated-VersionLabel".toList
        match w.gzipNewReader getResp.Body with
        | .error err => .ok (.error (.wrapped err "failed to create new gzip reader"))
        | .ok steps =>
          match readTar steps [] with
          | .error err => .ok (.error err)
          | .ok manifests =>
            .ok (.ok { UpdateCursor := updateCursor, VersionLabel := versionLabel,
                       Manifests := manifests })

/-- Go `mustMarshalLicense(license)`. -/
def mustMarshalLicense (w : World) (license : License) : Go Bytes :=
  match w.encodeLicense license with
  | .error _ => .error .explicitPanic
  | .ok b => .ok b

/-- Go `mustMarshalConfigValues(configValues)`. -/
def mustMarshalConfigValues (w : World) (configValues : ConfigValues) : Go Bytes :=
  match w.encodeConfigValues configValues with
  | .error _ => .error .explicitPanic
  | .ok b => .ok b

/-- The loop of `findConfigInRelease` over the contents that are left. -/
def findConfigInContents (w : World) : List Bytes → Go (Option Config)
  | [] => .ok none
  | content :: rest =>
    match w.decode content with
    | .error _ => findConfigInContents w rest
    | .ok (obj, gvk) =>
      if gvk.Group = "kots.io".toList ∧ gvk.Version = "v1beta1".toList ∧
          gvk.Kind = "Config".toList then
        match obj with
        | .config c => .ok (some c)
        | _ => .error .typeAssertion
      else findConfigInContents w rest

/-- Go `findConfigInRelease(release)`. -/
def findConfigInRelease (w : World) (release : Release) : Go (Option Config) :=
  findConfigInContents w (release.Manifests.map (fun m => m.2))

/-- The loop of `findAppInRelease` over the contents that are left: the first
application found, if any. -/
def findAppInContents (w : World) : List Bytes → Go (Option Application)
  | [] => .ok none
  | content :: rest =>
    match w.decode content with
    | .error _ => findAppInContents w rest
    | .ok (obj, gvk) =>
      if gvk.Group = "kots.io".toList ∧ gvk.Version = "v1beta1".toList ∧
          gvk.Kind = "Application".toList then
        match obj with
        | .application a => .ok (some a)
        | _ => .error .typeAssertion
      else findAppInContents w rest

/-- Go `findAppInRelease(release)`. -/
def findAppInRelease (w : World) (release : Release) : Go Application :=
  match findAppInContents w (release.Manifests.map (fun m => m.2)) with
  | .error fault => .error fault
  | .ok (some app) => .ok app
  | .ok none =>
    -- Using Ship apps for now, so let's create an app manifest on the fly
    .ok { APIVersion := "kots.io/v1beta1".toList, Kind := "Application".toList,
          Name := "replicated-kots-app".toList, Title := "Replicated Kots App".toList,
          Icon := [] }

/-- The first part of `downloadReplicated`: the release, read from the local
path or downloaded. -/
def obtainRelease (w : World) (u : URL) (localPath : GoString) (license : Option License) :
    GoResult Release :=
  if localPath ≠ [] then
    match readReplicatedAppFromLocalPath w localPath with
    | .error err => .ok (.error (.wrapped err "failed to read replicated app from local path"))
    | .ok parsedLocalRelease => .ok (.ok parsedLocalRelease)
  else
    -- A license file is required to be set for this to succeed
    match license with
    | none => .ok (.error (.errorString "No license was provided"))
    | some _ =>
      match parseReplicatedURL u with
      | .error err => .ok (.error (.wrapped err "failed to parse replicated upstream"))
      | .ok replicatedUpstream =>
        match getSuccessfulHeadResponse w replicatedUpstream license with
        | .error fault => .error fault
        | .ok (_, some err) =>
          .ok (.error (.wrapped err "failed to get successful head response"))
        | .ok (license, none) =>
          match downloadReplicatedApp w replicatedUpstream license with
          | .error fault => .error fault
          | .ok (.error err) => .ok (.error (.wrapped err "failed to download replicated app"))
          | .ok (.ok downloadedRelease) => .ok (.ok downloadedRelease)

/-- The second part of `downloadReplicated`, from the release on. -/
def materialize (w : World) (u : URL) (license : Option License) (release : Release) :
    GoResult Upstream :=
  -- Find the config in the upstream and write out default values
  match findAppInRelease w release with
  | .error fault => .error fault
  | .ok application =>
    match findConfigInRelease w release with
    | .error fault => .error fault
    | .ok config =>
      let withConfig : GoResult Release :=
        match config with
        | none => .ok (.ok release)
        | some config =>
          match createEmptyConfigValues w.render application.Name config with
          | .error err => .ok (.error (.wrapped err "failed to create empty config values"))
          | .ok configValues =>
            match mustMarshalConfigValues w configValues with
            | .error fault => .error fault
            | .ok b =>
              .ok (.ok { release with
                Manifests := mapSet release.Manifests "userdata/config.yaml".toList b })
      match withConfig with
      | .error fault => .error fault
      | .ok (.error err) => .ok (.error err)
      | .ok (.ok release) =>
        -- Add the license to the upstream, if one was propvided
        let withLicense : Go Release :=
          match license with
          | none => .ok release
          | some license =>
            match mustMarshalLicense w license with
            | .error fault => .error fault
            | .ok b =>
              .ok { release with
                Manifests := mapSet release.Manifests "userdata/license.yaml".toList b }
        match withLicense with
        | .error fault => .error fault
        | .ok release =>
          match releaseToFiles release with
          | .error fault => .error fault
          | .ok files =>
            .ok (.ok { URI := u.RequestURI, Name := application.Name, Files := files,
                       Type' := "replicated".toList, UpdateCursor := release.UpdateCursor,
                       VersionLabel := release.VersionLabel })

/-- Go `downloadReplicated(u, localPath, license)`. -/
def downloadReplicated (w : World) (u : URL) (localPath : GoString) (license : Option License) :
    GoResult Upstream :=
  match obtainRelease w u localPath license with
  | .error fault => .error fault
  | .ok (.error err) => .ok (.error err)
  | .ok (.ok release) => materialize w u license release

/-! ## Example world -/

/-- A license for the endpoint `https://replicated.app`. -/
def exampleLicense : License :=
  { LicenseID := "abc".toList, Endpoint := "https://replicated.app".toList,
    AppSlug := "myapp".toList }

/-- The reference that `replicated://myapp` resolves to. -/
def myappReference : ReplicatedUpstream :=
  { Channel := none, AppSlug := "myapp".toList, VersionLabel := none, Sequence := none }

/-- A world whose server answers every request with the given status and an
empty body, and in which nothing else fails. -/
def worldAnswering (status : Nat) : World :=
  { urlParse := fun _ =>
      .ok { Scheme := "https".toList, User := none, Hostname := "replicated.app".toList,
            Port := [], Path := [], RequestURI := "/".toList }
    newRequest := fun _ _ => none
    base64 := fun s => s
    Do := fun _ => .ok { StatusCode := status, Header := [], Body := [] }
    gzipNewReader := fun _ => .ok []
    walk := fun _ => .ok []
    decode := fun _ => .error (.errorString "no kind")
    render := literalRenderer
    encodeLicense := fun _ => .ok []
    encodeConfigValues := fun _ => .ok [] }

/-! ## Application metadata -/

/-- The conversion `[]byte(s)` of a string of ASCII characters. -/
def stringBytes (s : GoString) : Bytes :=
  s.map (fun c => c.toNat.toUInt8)

/-- The constant `DefaultMetadata`. -/
def DefaultMetadata : GoString :=
  ("apiVersion: kots.io/v1beta1\nkind: Application\nmetadata:\n  name: \"Application\"\n" ++
    "spec:\n  title: \"Application\"\n" ++
    "  icon: https://cdn1.iconfinder.com/data/icons/ninja-things-1/1772/ninja-simple-512.png").toList

/-- The URL that `getApplicationMetadataFromHost` asks `host` for. -/
def metadataURL (host : GoString) (r : ReplicatedUpstream) : GoString :=
  let url := "https://".toList ++ host ++ "/metadata/".toList ++ r.AppSlug
  match r.Channel with
  | some channel => url ++ "/".toList ++ channel
  | none => url

/-- Go `getApplicationMetadataFromHost(host, upstream)`; `none` is the nil
byte slice. -/
def getApplicationMetadataFromHost (w : World) (host : GoString) (upstream : URL) :
    Except GoError (Option Bytes) :=
  match parseReplicatedURL upstream with
  | .error err => .error (.wrapped err "failed to parse replicated upstream")
  | .ok r =>
    let url := metadataURL host r
    match w.newRequest "GET".toList url with
    | some err => .error (.wrapped err "failed to call newrequest")
    | none =>
      match w.Do { Method := "GET".toList, URL := url, Header := [] } with
      | .error err => .error (.wrapped err "failed to execute get request")
      | .ok getResp =>
        if getResp.StatusCode = 404 then
          -- no metadata is not an error
          .ok none
        else if getResp.StatusCode ≥ 400 then
          .error (.errorString
            ("expected result from get request: " ++ toString getResp.StatusCode))
        else
          -- return nil, nil
          .ok none

/-- Go `GetApplicationMetadata(upstream)`. -/
def GetApplicationMetadata (w : World) (upstream : URL) : Except GoError Bytes :=
  match getApplicationMetadataFromHost w "replicated.app".toList upstream with
  | .error err => .error (.wrapped err "failed to get metadata from replicated.app")
  | .ok metadata =>
    let metadata : Except GoError (Option Bytes) :=
      match metadata with
      | none =>
        match getApplicationMetadataFromHost w "staging.replicated.app".toList upstream with
        | .error err =>
          .error (.wrapped err "failed to get metadata from staging.replicated.app")
        | .ok otherMetadata => .ok otherMetadata
      | some m => .ok (some m)
    match metadata with
    | .error err => .error err
    | .ok none => .ok (stringBytes DefaultMetadata)
    | .ok (some m) => .ok m

/-! ## Notions of the specification of the later stages -/

/-- Whether a manifest decodes to a `kots.io/v1beta1` `Application`. -/
def decodesToApplication (w : World) (content : Bytes) : Bool :=
  match w.decode content with
  | .error _ => false
  | .ok (_, gvk) =>
    decide (gvk.Group = "kots.io".toList ∧ gvk.Version = "v1beta1".toList ∧
      gvk.Kind = "Application".toList)

/-- The host of a parsed endpoint, with its port when it has one. -/
def hostPort (u : URL) : GoString :=
  if u.Port = [] then u.Hostname else u.Hostname ++ [':'] ++ u.Port

/-- The address `{scheme}://{host[:port]}/release/{appSlug}[/{channel}]`. -/
def releaseURL (u : URL) (appSlug : GoString) (channel : Option GoString) : GoString :=
  u.Scheme ++ "://".toList ++ hostPort u ++ "/release/".toList ++ appSlug ++
    (match channel with
     | some c => '/' :: c
     | none => [])

/-- The header `Authorization: Basic base64(licenseID:licenseID)`. -/
def basicAuthorization (w : World) (licenseID : GoString) : GoString × GoString :=
  ("Authorization".toList, "Basic ".toList ++ w.base64 (licenseID ++ [':'] ++ licenseID))

/-! ## Further examples -/

/-- The group, version and kind of an application descriptor. -/
def applicationKind : GroupVersionKind :=
  { Group := "kots.io".toList, Version := "v1beta1".toList, Kind := "Application".toList }

/-- A world in which the content `[0]` does not decode and every other
content decodes to a deployment. -/
def deploymentWorld : World :=
  { worldAnswering 200 with
    decode := fun content =>
      if content = [0] then .error (.errorString "not a document")
      else .ok (.other, { Group := "apps".toList, Version := "v1".toList,
                          Kind := "Deployment".toList }) }

/-- A release of a file that does not decode and a deployment. -/
def deploymentRelease : Release :=
  { UpdateCursor := [], VersionLabel := [],
    Manifests := [("notes.txt".toList, [0]), ("deployment.yaml".toList, [1])] }

/-- A world whose local directory holds one application descriptor, the name
of which is empty. -/
def namelessApplicationWorld : World :=
  { worldAnswering 200 with
    walk := fun _ => .ok [("/release/app.yaml".toList, [1])]
    decode := fun _ =>
      .ok (.application { APIVersion := "kots.io/v1beta1".toList, Kind := "Application".toList,
                          Name := [], Title := "My App".toList, Icon := [] },
        applicationKind) }

/-- A world whose local directory holds a file that does not decode, a
deployment, the application descriptor of `my-app`, and a further application
descriptor, of `second-app`. -/
def namedApplicationWorld : World :=
  { worldAnswering 200 with
    walk := fun _ =>
      .ok [("/release/notes.txt".toList, [0]), ("/release/deployment.yaml".toList, [1]),
        ("/release/app.yaml".toList, [2]), ("/release/second.yaml".toList, [3])]
    decode := fun content =>
      if content = [0] then .error (.errorString "not a document")
      else if content = [1] then
        .ok (.other, { Group := "apps".toList, Version := "v1".toList,
                       Kind := "Deployment".toList })
      else if content = [2] then
        .ok (.application { APIVersion := "kots.io/v1beta1".toList,
                            Kind := "Application".toList, Name := "my-app".toList,
                            Title := "My App".toList, Icon := [] },
          applicationKind)
      else
        .ok (.application { APIVersion := "kots.io/v1beta1".toList,
                            Kind := "Application".toList, Name := "second-app".toList,
                            Title := "Second App".toList, Icon := [] },
          applicationKind) }

/-- The upstream that `downloadReplicated` makes of the local directory of
`namedApplicationWorld`. -/
def namedApplicationUpstream : Upstream :=
  { URI := "/unstable".toList, Name := "my-app".toList,
    Files := [{ Path := "notes.txt".toList, Content := [0] },
      { Path := "deployment.yaml".toList, Content := [1] },
      { Path := "app.yaml".toList, Content := [2] },
      { Path := "second.yaml".toList, Content := [3] }],
    Type' := "replicated".toList, UpdateCursor := "-1".toList, VersionLabel := [] }

/-- A license for the application `other`. -/
def otherLicense : License :=
  { LicenseID := "abc".toList, Endpoint := "https://replicated.app".toList,
    AppSlug := "other".toList }

/-- A world whose `http.NewRequest` rejects the method `BAD METHOD`. -/
def strictWorld : World :=
  { worldAnswering 200 with
    newRequest := fun method _ =>
      if method = "BAD METHOD".toList then some (.errorString "net/http: invalid method")
      else none }

/-- A world whose primary host serves the metadata `[1, 2, 3]` of `myapp` on
the channel `unstable`, and whose other hosts know nothing. -/
def metadataWorld : World :=
  { worldAnswering 404 with
    Do := fun req =>
      if req.URL = "https://replicated.app/metadata/myapp/unstable".toList then
        .ok { StatusCode := 200, Header := [], Body := [1, 2, 3] }
      else .ok { StatusCode := 404, Header := [], Body := [] } }

/-- A world whose primary host serves the metadata and whose fallback host
fails with status 500. -/
def brokenFallbackWorld : World :=
  { worldAnswering 404 with
    Do := fun req =>
      if req.URL = "https://replicated.app/metadata/myapp/unstable".toList then
        .ok { StatusCode := 200, Header := [], Body := [1, 2, 3] }
      else .ok { StatusCode := 500, Header := [], Body := [] } }

/-- The files `app/userdata/config.yaml` and `app/x.yaml` next to the generated
`userdata/config.yaml`. -/
def shadowedRelease : Release :=
  { UpdateCursor := [], VersionLabel := [],
    Manifests := [("app/userdata/config.yaml".toList, [1]), ("app/x.yaml".toList, [2]),
      ("userdata/config.yaml".toList, [3])] }

/-- The files `a//x.yaml` and `a/x.yaml`. -/
def twinRelease : Release :=
  { UpdateCursor := [], VersionLabel := [],
    Manifests := [("a//x.yaml".toList, [1]), ("a/x.yaml".toList, [2])] }

/-! ## Theorems -/

theorem stringsSplit_ne_nil (sep : Char) (s : GoString) : stringsSplit sep s ≠ [] := by
  induction s with
  | nil => simp [stringsSplit]
  | cons c cs ih =>
    unfold stringsSplit
    split
    · simp
    · split <;> simp

theorem stringsSplit_of_not_mem (sep : Char) (s : GoString) (h : sep ∉ s) :
    stringsSplit sep s = [s] := by
  induction s with
  | nil => rfl
  | cons c cs ih =>
    have hc : c ≠ sep := fun e => h (by simp [e])
    have hcs : sep ∉ cs := fun e => h (by simp [e])
    simp [stringsSplit, hc, ih hcs]

theorem stringsSplit_append_sep (sep : Char) (s t : GoString) (h : sep ∉ s) :
    stringsSplit sep (s ++ sep :: t) = s :: stringsSplit sep t := by
  induction s with
  | nil => simp [stringsSplit]
  | cons c cs ih =>
    have hc : c ≠ sep := fun e => h (by simp [e])
    have hcs : sep ∉ cs := fun e => h (by simp [e])
    simp [stringsSplit, hc, ih hcs]

theorem lastIndexFrom_not_mem (c : Char) (s : GoString) (i : Nat) (last : Int) (h : c ∉ s) :
    lastIndexFrom c s i last = last := by
  induction s generalizing i last with
  | nil => rfl
  | cons x xs ih =>
    have hx : x ≠ c := fun e => h (by simp [e])
    have hxs : c ∉ xs := fun e => h (by simp [e])
    simp [lastIndexFrom, hx, ih _ _ hxs]

theorem lastIndexFrom_append (c : Char) (a b : GoString) (i : Nat) (last : Int) :
    lastIndexFrom c (a ++ b) i last = lastIndexFrom c b (i + a.length) (lastIndexFrom c a i last) := by
  induction a generalizing i last with
  | nil => simp [lastIndexFrom]
  | cons x xs ih =>
    have e : i + 1 + xs.length = i + (xs.length + 1) := by omega
    show lastIndexFrom c (xs ++ b) (i + 1) _ = _
    rw [ih, e]
    rfl

theorem pathSplit_of_not_mem (f : GoString) (h : '/' ∉ f) : pathSplit f = ([], f) := by
  simp [pathSplit, stringsLastIndex, lastIndexFrom_not_mem _ _ _ _ h]

theorem pathSplit_append_slash (pre f : GoString) (h : '/' ∉ f) :
    pathSplit (pre ++ '/' :: f) = (pre ++ ['/'], f) := by
  have hi : stringsLastIndex (pre ++ '/' :: f) '/' = (pre.length : Int) := by
    simp [stringsLastIndex, lastIndexFrom_append, lastIndexFrom, lastIndexFrom_not_mem _ _ _ _ h]
  simp only [pathSplit, hi]
  have : ((pre.length : Int) + 1).toNat = pre.length + 1 := by omega
  rw [this]
  have e : pre ++ '/' :: f = (pre ++ ['/']) ++ f := by simp
  have l : (pre ++ ['/']).length = pre.length + 1 := by simp
  rw [e, ← l, List.take_left, List.drop_left]
  

theorem takeWhile_segment (s tail : GoString) (hs : '/' ∉ s)
    (ht : tail = [] ∨ ∃ t, tail = '/' :: t) :
    (s ++ tail).takeWhile (fun x => x ≠ '/') = s ∧
      (s ++ tail).dropWhile (fun x => x ≠ '/') = tail := by
  have hp : ∀ a ∈ s, (fun x : Char => decide (x ≠ '/')) a = true := by
    intro a ha
    have : a ≠ '/' := fun e => hs (e ▸ ha)
    simpa using this
  rw [List.takeWhile_append_of_pos hp, List.dropWhile_append_of_pos hp]
  rcases ht with rfl | ⟨t, rfl⟩ <;> simp

theorem cleanLoop_segment (fuel : Nat) (s tail out : GoString) (dotdot : Nat)
    (hs : ProperSegment s) (ht : tail = [] ∨ ∃ t, tail = '/' :: t) :
    cleanLoop false (fuel + 1) (s ++ tail) out dotdot =
      cleanLoop false fuel tail ((if out.length ≠ 0 then out ++ ['/'] else out) ++ s) dotdot := by
  obtain ⟨hne, hslash, hdot, hdotdot⟩ := hs
  obtain ⟨htake, hdrop⟩ := takeWhile_segment s tail hslash ht
  match s, hne with
  | c :: r, _ =>
    have hc : c ≠ '/' := fun e => hslash (by simp [e])
    have hr : ∀ x ∈ r, x ≠ '/' := fun x hx e => hslash (by subst e; simp [hx])
    have h2 : ¬ (c = '.' ∧ (r ++ tail = [] ∨ (r ++ tail).head? = some '/')) := by
      rintro ⟨rfl, h⟩
      match r, hdot, hr with
      | [], hdot, _ => exact hdot rfl
      | x :: r', _, hr => 
        have := hr x (by simp)
        simp at h
        exact this h
    have h3 : ¬ (c = '.' ∧ (r ++ tail).head? = some '.' ∧
        ((r ++ tail).tail = [] ∨ (r ++ tail).tail.head? = some '/')) := by
      rintro ⟨rfl, h, h'⟩
      match r, hdot, hdotdot, hr with
      | [], hdot, _, _ => exact hdot rfl
      | [x], _, hdotdot, _ =>
        simp at h
        subst h
        exact hdotdot rfl
      | x :: y :: r', _, _, hr =>
        have := hr y (by simp)
        simp at h'
        exact this h'
    rw [List.cons_append] at htake hdrop ⊢
    rw [cleanLoop]
    rw [if_neg hc, if_neg h2, if_neg h3, htake, hdrop]
    simp

theorem cleanLoop_nil (rooted : Bool) (fuel : Nat) (out : GoString) (dotdot : Nat) :
    cleanLoop rooted fuel [] out dotdot = out := by
  cases fuel <;> simp [cleanLoop]

theorem slashed_cons (s : GoString) (segs : List GoString) :
    slashed (s :: segs) = s ++ '/' :: slashed segs := by
  simp [slashed]

theorem slashed_append (a b : List GoString) : slashed (a ++ b) = slashed a ++ slashed b := by
  simp [slashed]

theorem cleanLoop_slashed (segs : List GoString) (hs : ∀ s ∈ segs, ProperSegment s)
    (tail : GoString) (fuel : Nat) (out : GoString) (dotdot : Nat)
    (hfuel : (slashed segs ++ tail).length ≤ fuel) :
    ∃ fuel', tail.length ≤ fuel' ∧
      cleanLoop false fuel (slashed segs ++ tail) out dotdot =
        cleanLoop false fuel' tail (joinOnto out segs) dotdot := by
  induction segs generalizing fuel out with
  | nil => exact ⟨fuel, by simpa [slashed] using hfuel, by simp [slashed, joinOnto]⟩
  | cons s rest ih =>
    have hps : ProperSegment s := hs s (by simp)
    have hlen : 1 ≤ s.length := by
      rcases s with _ | ⟨c, r⟩
      · exact absurd rfl hps.1
      · simp
    rw [slashed_cons] at hfuel ⊢
    simp only [List.append_assoc, List.cons_append, List.length_append, List.length_cons] at hfuel
    obtain ⟨f2, rfl⟩ : ∃ f2, fuel = f2 + 2 := ⟨fuel - 2, by omega⟩
    have h1 := cleanLoop_segment (f2 + 1) s ('/' :: (slashed rest ++ tail)) out dotdot hps
      (Or.inr ⟨_, rfl⟩)
    have h2 : ∀ o, cleanLoop false (f2 + 1) ('/' :: (slashed rest ++ tail)) o dotdot =
        cleanLoop false f2 (slashed rest ++ tail) o dotdot := by
      intro o
      rw [cleanLoop]
      simp
    obtain ⟨fuel', hle, heq⟩ := ih (fun x hx => hs x (by simp [hx])) f2
      ((if out.length ≠ 0 then out ++ ['/'] else out) ++ s)
      (by simp only [List.length_append]; omega)
    refine ⟨fuel', hle, ?_⟩
    simp only [List.append_assoc, List.cons_append]
    rw [h1, h2, heq]
    rfl

theorem joinOnto_of_ne_nil (out : GoString) (segs : List GoString) (ho : out ≠ []) :
    joinOnto out segs = stringsJoin ['/'] (out :: segs) := by
  induction segs generalizing out with
  | nil => rfl
  | cons s rest ih =>
    have hl : out.length ≠ 0 := by simpa using ho
    rw [joinOnto, if_pos hl, ih _ (by simp [ho])]
    cases rest <;> simp [stringsJoin]

theorem joinOnto_nil (segs : List GoString) (hs : ∀ s ∈ segs, s ≠ []) :
    joinOnto [] segs = stringsJoin ['/'] segs := by
  cases segs with
  | nil => rfl
  | cons s rest =>
    have : s ≠ [] := hs s (by simp)
    rw [joinOnto]
    simp only [List.length_nil, ne_eq, not_true_eq_false, if_false, List.nil_append]
    exact joinOnto_of_ne_nil s rest this

theorem stringsJoin_concat (init : List GoString) (last : GoString) :
    stringsJoin ['/'] (init ++ [last]) = slashed init ++ last := by
  induction init with
  | nil => simp [stringsJoin, slashed]
  | cons s rest ih =>
    rw [slashed_cons]
    cases rest with
    | nil => simp [stringsJoin, slashed]
    | cons t rest' =>
      simp only [List.cons_append] at ih ⊢
      rw [stringsJoin, ih]
      simp

theorem joinOnto_append (out : GoString) (a b : List GoString) :
    joinOnto out (a ++ b) = joinOnto (joinOnto out a) b := by
  induction a generalizing out with
  | nil => rfl
  | cons s rest ih => simp [joinOnto, ih]

theorem pathClean_aux (segs : List GoString) (hs : ∀ s ∈ segs, ProperSegment s)
    (hne : segs ≠ []) (tail : GoString) (ht : tail = [] ∨ ProperSegment tail) :
    pathClean (slashed segs ++ tail) =
      joinOnto [] (segs ++ (if tail = [] then [] else [tail])) := by
  obtain ⟨s, rest, rfl⟩ : ∃ s rest, segs = s :: rest := by
    cases segs with
    | nil => exact absurd rfl hne
    | cons s rest => exact ⟨s, rest, rfl⟩
  have hps : ProperSegment s := hs s (by simp)
  obtain ⟨c, r, rfl⟩ : ∃ c r, s = c :: r := by
    rcases s with _ | ⟨c, r⟩
    · exact absurd rfl hps.1
    · exact ⟨c, r, rfl⟩
  have hc : c ≠ '/' := fun e => hps.2.1 (by simp [e])
  obtain ⟨fuel', hle, heq⟩ := cleanLoop_slashed ((c :: r) :: rest) hs tail
    (slashed ((c :: r) :: rest) ++ tail).length [] 0 (le_refl _)
  have hout : (joinOnto [] (((c :: r) :: rest) ++ (if tail = [] then [] else [tail]))).length ≠ 0 := by
    rw [joinOnto_nil]
    · simp [stringsJoin]
      cases h : rest ++ (if tail = [] then [] else [tail]) <;> simp [stringsJoin]
    · intro x hx
      simp only [List.mem_append, List.mem_cons] at hx
      rcases hx with hx | hx
      · exact (hs x (by simpa using hx)).1
      · split at hx
        · simp at hx
        · simp at hx; subst hx; assumption
  have hfin : cleanLoop false fuel' tail (joinOnto [] ((c :: r) :: rest)) 0 =
      joinOnto [] (((c :: r) :: rest) ++ (if tail = [] then [] else [tail])) := by
    rcases ht with rfl | ht
    · simp [cleanLoop_nil]
    · have hne' : tail ≠ [] := ht.1
      obtain ⟨f, rfl⟩ : ∃ f, fuel' = f + 1 := by
        have : 1 ≤ tail.length := by
          rcases tail with _ | ⟨_, _⟩
          · exact absurd rfl hne'
          · simp
        exact ⟨fuel' - 1, by omega⟩
      have := cleanLoop_segment f tail [] (joinOnto [] ((c :: r) :: rest)) 0 ht (Or.inl rfl)
      simp only [List.append_nil] at this
      rw [this, cleanLoop_nil, if_neg hne', joinOnto_append]
      rfl
  have hpath : slashed ((c :: r) :: rest) ++ tail = c :: (r ++ '/' :: (slashed rest ++ tail)) := by
    simp [slashed_cons]
  have hrooted : ((c :: (r ++ '/' :: (slashed rest ++ tail))).head? = some '/') = False := by
    simp [hc]
  rw [pathClean]
  rw [hpath] at heq ⊢
  simp only [hrooted, decide_False, Bool.false_eq_true, if_false, reduceCtorEq]
  rw [heq, hfin, if_neg hout]

theorem length_dropWhile_le (p : Char → Bool) (l : GoString) :
    (l.dropWhile p).length ≤ l.length := by
  induction l with
  | nil => simp
  | cons x xs ih =>
    rw [List.dropWhile_cons]
    split
    · exact Nat.le_succ_of_le ih
    · exact le_refl _

/-- The loop of `path.Clean` has fuel enough: with at least as much fuel as
there are characters left, its result does not depend on the fuel. -/
theorem cleanLoop_fuel (rooted : Bool) (f1 f2 : Nat) (rest out : GoString) (dotdot : Nat)
    (h1 : rest.length ≤ f1) (h2 : rest.length ≤ f2) :
    cleanLoop rooted f1 rest out dotdot = cleanLoop rooted f2 rest out dotdot := by
  induction f1 generalizing f2 rest out dotdot with
  | zero =>
    have : rest = [] := List.eq_nil_of_length_eq_zero (Nat.le_zero.1 h1)
    subst this
    rw [cleanLoop_nil, cleanLoop_nil]
  | succ a ih =>
    cases rest with
    | nil => rw [cleanLoop_nil, cleanLoop_nil]
    | cons c r =>
      obtain ⟨b, rfl⟩ : ∃ b, f2 = b + 1 := ⟨f2 - 1, by simp at h2; omega⟩
      simp only [List.length_cons, Nat.add_le_add_iff_right] at h1 h2
      have htail1 : r.tail.length ≤ a := by simp; omega
      have htail2 : r.tail.length ≤ b := by simp; omega
      rw [cleanLoop, cleanLoop]
      split
      · exact ih b r out dotdot h1 h2
      · split
        · exact ih b r out dotdot h1 h2
        · split
          · split
            · exact ih b _ _ _ htail1 htail2
            · split
              · exact ih b _ _ _ htail1 htail2
              · exact ih b _ _ _ htail1 htail2
          · next hc _ _ =>
            have hd : ((c :: r).dropWhile (fun x => decide (x ≠ '/'))).length ≤ r.length := by
              rw [List.dropWhile_cons]
              simp only [ne_eq, hc, not_false_eq_true, decide_True, if_true]
              exact length_dropWhile_le _ r
            exact ih b _ _ _ (le_trans hd h1) (le_trans hd h2)

theorem pathClean_segment (s : GoString) (hs : ProperSegment s) : pathClean s = s := by
  obtain ⟨c, r, rfl⟩ : ∃ c r, s = c :: r := by
    rcases s with _ | ⟨c, r⟩
    · exact absurd rfl hs.1
    · exact ⟨c, r, rfl⟩
  have hc : c ≠ '/' := fun e => hs.2.1 (by simp [e])
  have h := cleanLoop_segment r.length (c :: r) [] [] 0 hs (Or.inl rfl)
  simp only [List.append_nil, List.length_nil, ne_eq, not_true_eq_false, if_false,
    List.nil_append, cleanLoop_nil] at h
  have hrooted : ((c :: r).head? = some '/') = False := by simp [hc]
  rw [pathClean]
  simp only [hrooted, decide_False, Bool.false_eq_true, if_false, reduceCtorEq,
    List.length_cons, h]

theorem slashed_eq_join (segs : List GoString) (hne : segs ≠ []) :
    slashed segs = stringsJoin ['/'] segs ++ ['/'] := by
  induction segs with
  | nil => exact absurd rfl hne
  | cons s rest ih =>
    rw [slashed_cons]
    cases rest with
    | nil => simp [stringsJoin, slashed]
    | cons t rest' =>
      rw [ih (by simp), stringsJoin]
      simp

theorem stringsJoin_ne_nil (segs : List GoString) (hne : segs ≠ [])
    (hs : ∀ s ∈ segs, s ≠ []) : stringsJoin ['/'] segs ≠ [] := by
  match segs, hne with
  | [a], _ => simpa [stringsJoin] using hs a (by simp)
  | a :: b :: rest, _ => simp [stringsJoin]

theorem pathJoin_dirs (rest : List GoString) (hs : ∀ s ∈ rest, ProperSegment s) :
    pathJoin (rest ++ [[]]) = stringsJoin ['/'] rest := by
  cases rest with
  | nil => simp [pathJoin, stringsJoin]
  | cons a rest' =>
    have ha : a ≠ [] := (hs a (by simp)).1
    rw [List.cons_append, pathJoin, if_pos ha, ← List.cons_append, stringsJoin_concat]
    have := pathClean_aux (a :: rest') hs (by simp) [] (Or.inl rfl)
    simp only [if_true, List.append_nil] at this ⊢
    rw [this, joinOnto_nil _ (fun s h => (hs s h).1)]

theorem pathJoin_file (rest : List GoString) (f : GoString)
    (hs : ∀ s ∈ rest, ProperSegment s) (hf : ProperSegment f) :
    pathJoin [stringsJoin ['/'] rest, f] = slashed rest ++ f := by
  cases rest with
  | nil =>
    simp only [stringsJoin, pathJoin, ne_eq, not_true_eq_false, if_false]
    rw [if_pos hf.1, pathClean_segment f hf]
    simp [slashed]
  | cons a rest' =>
    have hne : stringsJoin ['/'] (a :: rest') ≠ [] :=
      stringsJoin_ne_nil _ (by simp) (fun s h => (hs s h).1)
    rw [pathJoin, if_pos hne]
    have e : stringsJoin ['/'] [stringsJoin ['/'] (a :: rest'), f] = slashed (a :: rest') ++ f := by
      rw [slashed_eq_join _ (by simp)]
      simp [stringsJoin]
    rw [e, pathClean_aux (a :: rest') hs (by simp) f (Or.inr hf), if_neg hf.1,
      joinOnto_nil, stringsJoin_concat]
    intro s h
    simp only [List.mem_append, List.mem_singleton] at h
    rcases h with h | rfl
    · exact (hs s h).1
    · exact hf.1

theorem stringsSplit_no_sep (sep : Char) (s : GoString) :
    ∀ seg ∈ stringsSplit sep s, sep ∉ seg := by
  induction s with
  | nil => simp [stringsSplit]
  | cons c cs ih =>
    intro seg hseg
    unfold stringsSplit at hseg
    split at hseg
    · simp only [List.mem_cons] at hseg
      rcases hseg with rfl | h
      · simp
      · exact ih seg h
    · next hc =>
      split at hseg
      · simp only [List.mem_singleton] at hseg
        subst hseg
        simpa using fun e => hc e.symm
      · next seg' segs heq =>
        simp only [List.mem_cons] at hseg
        rcases hseg with rfl | h
        · have := ih seg' (by simp [heq])
          simp only [List.mem_cons, not_or]
          exact ⟨fun e => hc e.symm, this⟩
        · exact ih seg (by simp [heq, h])

theorem stringsJoin_stringsSplit (sep : Char) (s : GoString) :
    stringsJoin [sep] (stringsSplit sep s) = s := by
  induction s with
  | nil => rfl
  | cons c cs ih =>
    unfold stringsSplit
    split
    · next h =>
      subst h
      obtain ⟨a, rest, e⟩ : ∃ a rest, stringsSplit c cs = a :: rest := by
        cases h : stringsSplit c cs with
        | nil => exact absurd h (stringsSplit_ne_nil _ _)
        | cons a rest => exact ⟨a, rest, rfl⟩
      rw [e] at ih ⊢
      simp [stringsJoin, ih]
    · split
      · next heq => exact absurd heq (stringsSplit_ne_nil _ _)
      · next seg segs heq =>
        rw [heq] at ih
        cases segs with
        | nil => simpa [stringsJoin] using ih
        | cons t rest =>
          simp only [stringsJoin] at ih ⊢
          simp [← ih]

theorem stringsSplit_slashed (init : List GoString) (hs : ∀ s ∈ init, '/' ∉ s) :
    stringsSplit '/' (slashed init) = init ++ [[]] := by
  induction init with
  | nil => rfl
  | cons s rest ih =>
    rw [slashed_cons, stringsSplit_append_sep _ _ _ (hs s (by simp)),
      ih (fun x hx => hs x (by simp [hx]))]
    rfl

theorem pathSplit_slashed (init : List GoString) (f : GoString) (hf : '/' ∉ f) :
    pathSplit (slashed init ++ f) = (slashed init, f) := by
  by_cases hne : init = []
  · subst hne
    simpa [slashed] using pathSplit_of_not_mem f hf
  · rw [slashed_eq_join _ hne]
    have := pathSplit_append_slash (stringsJoin ['/'] init) f hf
    simpa using this

/-- A path all of whose segments are proper, in its segments. -/
theorem cleanPath_segments (p : GoString)
    (hp : ∀ s ∈ stringsSplit '/' p, s ≠ [] ∧ s ≠ ['.'] ∧ s ≠ ['.', '.']) :
    ∃ init f, p = slashed init ++ f ∧ (∀ s ∈ init, ProperSegment s) ∧ ProperSegment f := by
  have hne := stringsSplit_ne_nil '/' p
  have hno := stringsSplit_no_sep '/' p
  have hj := stringsJoin_stringsSplit '/' p
  rcases List.eq_nil_or_concat (stringsSplit '/' p) with h | ⟨init, f, h⟩
  · exact absurd h hne
  · rw [h] at hp hno hj
    rw [List.concat_eq_append] at hp hno hj
    rw [stringsJoin_concat] at hj
    refine ⟨init, f, hj.symm, ?_, ?_⟩
    · intro s hs
      have := hp s (by simp [hs])
      exact ⟨this.1, hno s (by simp [hs]), this.2.1, this.2.2⟩
    · have := hp f (by simp)
      exact ⟨this.1, hno f (by simp), this.2.1, this.2.2⟩

theorem head_stringsSplit (sep : Char) (s : GoString) :
    ∃ rest, stringsSplit sep s = s.takeWhile (fun x => x ≠ sep) :: rest := by
  induction s with
  | nil => exact ⟨[], rfl⟩
  | cons c cs ih =>
    obtain ⟨rest, hrest⟩ := ih
    unfold stringsSplit
    by_cases hc : c = sep
    · simp [hc]
    · simp [hc, hrest]

theorem pathSplit_cases (p : GoString) :
    ('/' ∉ p ∧ pathSplit p = ([], p)) ∨
      ∃ pre f, p = pre ++ '/' :: f ∧ '/' ∉ f ∧ pathSplit p = (pre ++ ['/'], f) := by
  have key : ∀ q : GoString, '/' ∉ q ∨ ∃ pre f, q = pre ++ '/' :: f ∧ '/' ∉ f := by
    intro q
    induction q with
    | nil => left; simp
    | cons x xs ih =>
      rcases ih with h | ⟨pre, f, rfl, hf⟩
      · by_cases hx : x = '/'
        · right; exact ⟨[], xs, by simp [hx], h⟩
        · left
          simp only [List.mem_cons, not_or]
          exact ⟨fun e => hx e.symm, h⟩
      · right; exact ⟨x :: pre, f, rfl, hf⟩
  rcases key p with h | ⟨pre, f, rfl, hf⟩
  · exact Or.inl ⟨h, pathSplit_of_not_mem p h⟩
  · exact Or.inr ⟨pre, f, rfl, hf, pathSplit_append_slash pre f hf⟩

theorem first_slash (d : GoString) (h : '/' ∈ d) :
    ∃ r, d = d.takeWhile (fun x => x ≠ '/') ++ '/' :: r := by
  have hd := List.takeWhile_append_dropWhile (fun x : Char => decide (x ≠ '/')) d
  have hne : d.dropWhile (fun x => decide (x ≠ '/')) ≠ [] := by
    intro e
    rw [List.dropWhile_eq_nil_iff] at e
    simpa using e '/' h
  have hh := List.head_dropWhile_not (fun x : Char => decide (x ≠ '/')) d hne
  cases hdw : d.dropWhile (fun x => decide (x ≠ '/')) with
  | nil => exact absurd hdw hne
  | cons y r =>
    simp only [hdw, List.head_cons] at hh
    have hy : y = '/' := by simpa using hh
    subst hy
    exact ⟨r, by rw [hdw] at hd; exact hd.symm⟩

theorem not_mem_takeWhile (d : GoString) : '/' ∉ d.takeWhile (fun x => x ≠ '/') := by
  intro h
  have := List.mem_takeWhile_imp h
  simp at this

theorem prefix_slash_iff (s x : GoString) (hs : '/' ∉ s) :
    (s ++ ['/']) <+: x ↔ ('/' ∈ x ∧ x.takeWhile (fun c => c ≠ '/') = s) := by
  constructor
  · rintro ⟨q, rfl⟩
    refine ⟨by simp, ?_⟩
    have := (takeWhile_segment s ('/' :: q) hs (Or.inr ⟨q, rfl⟩)).1
    simpa using this
  · rintro ⟨hx, rfl⟩
    obtain ⟨r, hr⟩ := first_slash x hx
    exact ⟨r, by rw [List.append_assoc]; exact hr.symm⟩

theorem takeWhile_append_of_slash (d f : GoString) (h : '/' ∈ d) :
    (d ++ f).takeWhile (fun x => x ≠ '/') = d.takeWhile (fun x => x ≠ '/') := by
  obtain ⟨r, hr⟩ := first_slash d h
  have := (takeWhile_segment (d.takeWhile (fun x => x ≠ '/')) ('/' :: (r ++ f))
    (not_mem_takeWhile d) (Or.inr ⟨_, rfl⟩)).1
  conv_lhs => rw [hr]
  simpa using this

theorem userdata_no_slash : '/' ∉ userdata := by decide

/-- The test `dirs[0] == "userdata"` of the code holds exactly for the paths
that start with `userdata/`. -/
theorem indexZero_dirSegments (p : GoString) :
    ∃ d0, indexZero (dirSegments p) = .ok d0 ∧ (d0 = userdata ↔ underUserdata p) := by
  obtain ⟨rest, hrest⟩ := head_stringsSplit '/' (pathSplit p).1
  refine ⟨_, by rw [dirSegments, hrest]; rfl, ?_⟩
  unfold underUserdata
  rcases pathSplit_cases p with ⟨hno, hsplit⟩ | ⟨pre, f, hp, hf, hsplit⟩
  · rw [hsplit]
    constructor
    · intro h
      have h' : ([] : GoString) = userdata := h
      exact absurd h' (by decide)
    · intro h
      exact absurd ((prefix_slash_iff _ _ userdata_no_slash).1 h).1 hno
  · rw [hsplit]
    have hmem : '/' ∈ pre ++ ['/'] := by simp
    have hp' : p = (pre ++ ['/']) ++ f := by simp [hp]
    rw [prefix_slash_iff _ p userdata_no_slash, hp', takeWhile_append_of_slash _ _ hmem]
    constructor
    · intro h; exact ⟨by simp, h⟩
    · intro h; exact h.2

theorem stashUserdata_eq (files : List UpstreamFile) :
    stashUserdata files =
      .ok (files.filter (fun f => decide (underUserdata f.Path)),
        files.filter (fun f => !decide (underUserdata f.Path))) := by
  induction files with
  | nil => rfl
  | cons file rest ih =>
    obtain ⟨d0, h0, hiff⟩ := indexZero_dirSegments file.Path
    rw [stashUserdata, h0, ih]
    by_cases h : underUserdata file.Path
    · have : d0 = userdata := hiff.2 h
      simp [this, h, bind, Except.bind]
    · have : ¬ d0 = userdata := fun e => h (hiff.1 e)
      simp [this, h, bind, Except.bind]

theorem commonSlicePrefix_prefix_left (a b : List GoString) : CommonSlicePrefix a b <+: a := by
  induction a generalizing b with
  | nil => simp [CommonSlicePrefix]
  | cons x xs ih =>
    cases b with
    | nil => simp [CommonSlicePrefix]
    | cons y ys =>
      rw [CommonSlicePrefix]
      split
      · exact (List.prefix_cons_inj x).2 (ih ys)
      · exact List.nil_prefix

theorem commonSlicePrefix_prefix_right (a b : List GoString) : CommonSlicePrefix a b <+: b := by
  induction a generalizing b with
  | nil => simp [CommonSlicePrefix]
  | cons x xs ih =>
    cases b with
    | nil => simp [CommonSlicePrefix]
    | cons y ys =>
      rw [CommonSlicePrefix]
      split
      · next h => subst h; exact (List.prefix_cons_inj x).2 (ih ys)
      · exact List.nil_prefix

theorem prefix_commonSlicePrefix (q a b : List GoString) (ha : q <+: a) (hb : q <+: b) :
    q <+: CommonSlicePrefix a b := by
  induction q generalizing a b with
  | nil => exact List.nil_prefix
  | cons z zs ih =>
    obtain ⟨ta, rfl⟩ := ha
    obtain ⟨tb, rfl⟩ := hb
    simp only [List.cons_append, CommonSlicePrefix, if_true]
    exact (List.prefix_cons_inj z).2 (ih _ _ (List.prefix_append _ _) (List.prefix_append _ _))

theorem foldCommonPrefix_cons (cp : List GoString) (f : UpstreamFile) (files : List UpstreamFile) :
    foldCommonPrefix cp (f :: files) =
      foldCommonPrefix (CommonSlicePrefix cp (dirSegments f.Path)) files := rfl

theorem foldCommonPrefix_prefix_init (cp : List GoString) (files : List UpstreamFile) :
    foldCommonPrefix cp files <+: cp := by
  induction files generalizing cp with
  | nil => exact List.prefix_refl _
  | cons f rest ih =>
    rw [foldCommonPrefix_cons]
    exact (ih _).trans (commonSlicePrefix_prefix_left _ _)

theorem foldCommonPrefix_prefix_mem (cp : List GoString) (files : List UpstreamFile)
    (f : UpstreamFile) (hf : f ∈ files) :
    foldCommonPrefix cp files <+: dirSegments f.Path := by
  induction files generalizing cp with
  | nil => simp at hf
  | cons g rest ih =>
    rw [foldCommonPrefix_cons]
    rcases List.mem_cons.1 hf with rfl | h
    · exact (foldCommonPrefix_prefix_init _ _).trans (commonSlicePrefix_prefix_right _ _)
    · exact ih _ h

theorem prefix_foldCommonPrefix (q cp : List GoString) (files : List UpstreamFile)
    (hcp : q <+: cp) (hfiles : ∀ f ∈ files, q <+: dirSegments f.Path) :
    q <+: foldCommonPrefix cp files := by
  induction files generalizing cp with
  | nil => exact hcp
  | cons g rest ih =>
    rw [foldCommonPrefix_cons]
    exact ih _ (prefix_commonSlicePrefix _ _ _ hcp (hfiles g (by simp)))
      (fun f hf => hfiles f (by simp [hf]))

theorem cleanUpstreamFile_eq (cp : List GoString) (file : UpstreamFile)
    (h : cp.length ≤ (dirSegments file.Path).length) :
    cleanUpstreamFile cp file = .ok (stripSegments cp.length file) := by
  have h' : cp.length ≤ (stringsSplit '/' (pathSplit file.Path).1).length := h
  simp [cleanUpstreamFile, sliceFrom, h', stripSegments, dirSegments, bind, Except.bind]

theorem mapM_cleanUpstreamFile (cp : List GoString) (files : List UpstreamFile)
    (h : ∀ f ∈ files, cp.length ≤ (dirSegments f.Path).length) :
    files.mapM (cleanUpstreamFile cp) = .ok (files.map (stripSegments cp.length)) := by
  induction files with
  | nil => rfl
  | cons f rest ih =>
    rw [List.mapM_cons, cleanUpstreamFile_eq cp f (h f (by simp)),
      ih (fun g hg => h g (by simp [hg]))]
    rfl

theorem removedPrefix_eq (r : Release) :
    removedPrefix r =
      match nonReservedFiles r with
      | [] => []
      | first :: rest => foldCommonPrefix (dirSegments first.Path) (first :: rest) := by
  rw [removedPrefix, stashUserdata_eq]
  unfold nonReservedFiles
  cases List.filter (fun f => !decide (underUserdata f.Path)) (manifestFiles r) <;> rfl

theorem removedPrefix_prefix (r : Release) (f : UpstreamFile) (hf : f ∈ nonReservedFiles r) :
    removedPrefix r <+: dirSegments f.Path := by
  rw [removedPrefix_eq]
  cases h : nonReservedFiles r with
  | nil => exact List.nil_prefix
  | cons first rest =>
    rw [h] at hf
    exact foldCommonPrefix_prefix_mem _ _ f hf

/-- What `releaseToFiles` returns, for every release. -/
theorem releaseToFiles_eq (r : Release) :
    releaseToFiles r =
      .ok ((match nonReservedFiles r with
          | [] => manifestFiles r
          | first :: rest => (first :: rest).map (stripSegments (removedPrefix r).length))
        ++ reservedFiles r) := by
  have hpre := removedPrefix_prefix r
  have hrem := removedPrefix_eq r
  rw [releaseToFiles, stashUserdata_eq]
  unfold reservedFiles
  unfold nonReservedFiles at hpre hrem ⊢
  generalize List.filter (fun f => !decide (underUserdata f.Path)) (manifestFiles r) = nr
    at hpre hrem ⊢
  cases nr with
  | nil => rfl
  | cons first rest =>
    simp only at hrem
    simp only [bind, Except.bind]
    rw [← hrem, mapM_cleanUpstreamFile _ _ (fun f hf => (hpre f hf).length_le)]

theorem filter_proper (init : List GoString) (hs : ∀ s ∈ init, ProperSegment s) :
    init.filter (fun s => decide (s ≠ [])) = init := by
  rw [List.filter_eq_self]
  intro s h
  simpa using (hs s h).1

theorem dirSegments_clean (init : List GoString) (f : GoString)
    (hs : ∀ s ∈ init, ProperSegment s) (hf : ProperSegment f) :
    dirSegments (slashed init ++ f) = init ++ [[]] := by
  rw [dirSegments, pathSplit_slashed init f hf.2.1]
  exact stringsSplit_slashed init (fun s h => (hs s h).2.1)

theorem strip_round_trip (p : GoString) (c : Bytes) (cp : List GoString)
    (hclean : CleanPath p) (hcp : cp <+: dirSegments p) :
    prefixText cp ++ (stripSegments cp.length { Path := p, Content := c }).Path = p := by
  obtain ⟨init, f, rfl, hs, hf⟩ := cleanPath_segments p hclean
  rw [dirSegments_clean init f hs hf] at hcp
  simp only [stripSegments, dirSegments_clean init f hs hf, pathSplit_slashed init f hf.2.1]
  rcases List.prefix_concat_iff.1 hcp with rfl | ⟨rest, rfl⟩
  · rw [List.drop_length]
    simp only [pathJoin, ne_eq, not_true_eq_false, if_false, if_pos hf.1, stringsJoin,
      pathClean_segment f hf, prefixText]
    rw [List.filter_append, filter_proper init hs]
    simp
  · have hcps : ∀ s ∈ cp, ProperSegment s := fun s h => hs s (by simp [h])
    have hrs : ∀ s ∈ rest, ProperSegment s := fun s h => hs s (by simp [h])
    rw [List.append_assoc, List.drop_left, pathJoin_dirs rest hrs, pathJoin_file rest f hrs hf,
      prefixText, filter_proper cp hcps, slashed_append]
    simp

theorem pathClean_join (segs : List GoString) (hne : segs ≠ [])
    (hs : ∀ s ∈ segs, ProperSegment s) :
    pathClean (stringsJoin ['/'] segs) = stringsJoin ['/'] segs := by
  rcases List.eq_nil_or_concat segs with h | ⟨init, last, h⟩
  · exact absurd h hne
  · rw [List.concat_eq_append] at h
    subst h
    have hinit : ∀ s ∈ init, ProperSegment s := fun s hm => hs s (by simp [hm])
    have hlast : ProperSegment last := hs last (by simp)
    rw [stringsJoin_concat]
    by_cases hi : init = []
    · subst hi
      simpa [slashed] using pathClean_segment last hlast
    · rw [pathClean_aux init hinit hi last (Or.inr hlast), if_neg hlast.1, joinOnto_nil,
        stringsJoin_concat]
      intro s hm
      exact (hs s hm).1

theorem pathJoin_segments (segs : List GoString) (hs : ∀ s ∈ segs, ProperSegment s) :
    pathJoin segs = stringsJoin ['/'] segs := by
  cases segs with
  | nil => rfl
  | cons a rest =>
    rw [pathJoin, if_pos (hs a (by simp)).1]
    exact pathClean_join _ (by simp) hs

theorem join_round_trip (p : GoString) (c : Bytes) (cp : List GoString)
    (hclean : CleanPath p) (hcp : cp <+: dirSegments p) :
    pathJoin [pathJoin cp, (stripSegments cp.length { Path := p, Content := c }).Path] = p := by
  obtain ⟨init, f, rfl, hs, hf⟩ := cleanPath_segments p hclean
  rw [dirSegments_clean init f hs hf] at hcp
  simp only [stripSegments, dirSegments_clean init f hs hf, pathSplit_slashed init f hf.2.1]
  rcases List.prefix_concat_iff.1 hcp with rfl | ⟨rest, rfl⟩
  · rw [List.drop_length, pathJoin_dirs init hs]
    have e : pathJoin [pathJoin [], f] = f := by
      simp only [pathJoin, ne_eq, not_true_eq_false, if_false, if_pos hf.1, stringsJoin,
        pathClean_segment f hf]
    rw [e, pathJoin_file init f hs hf]
  · have hcps : ∀ s ∈ cp, ProperSegment s := fun s h => hs s (by simp [h])
    have hrs : ∀ s ∈ rest, ProperSegment s := fun s h => hs s (by simp [h])
    have hall : ∀ s ∈ rest ++ [f], ProperSegment s := by
      intro s h
      rcases List.mem_append.1 h with h | h
      · exact hrs s h
      · simp only [List.mem_singleton] at h
        subst h
        exact hf
    rw [List.append_assoc, List.drop_left, pathJoin_dirs rest hrs, pathJoin_file rest f hrs hf,
      pathJoin_segments cp hcps]
    have hout : slashed rest ++ f = stringsJoin ['/'] (rest ++ [f]) := (stringsJoin_concat _ _).symm
    by_cases hc : cp = []
    · subst hc
      have hne : slashed rest ++ f ≠ [] := by
        rw [hout]
        exact stringsJoin_ne_nil _ (by simp) (fun s h => (hall s h).1)
      simp only [stringsJoin, pathJoin, ne_eq, not_true_eq_false, if_false, if_pos hne,
        List.nil_append]
      rw [hout, pathClean_join _ (by simp) hall]
    · have hne : stringsJoin ['/'] cp ≠ [] :=
        stringsJoin_ne_nil _ hc (fun s h => (hcps s h).1)
      rw [pathJoin, if_pos hne]
      have e : stringsJoin ['/'] [stringsJoin ['/'] cp, slashed rest ++ f] =
          stringsJoin ['/'] ((cp ++ rest) ++ [f]) := by
        rw [stringsJoin_concat, slashed_append, slashed_eq_join cp hc]
        simp [stringsJoin]
      rw [e, pathClean_join _ (by simp), stringsJoin_concat]
      intro s h
      rcases List.mem_append.1 h with h | h
      · exact hs s h
      · simp only [List.mem_singleton] at h
        subst h
        exact hf

theorem nonReservedFiles_of_none (r : Release) (h : ∀ m ∈ r.Manifests, ¬ underUserdata m.1) :
    nonReservedFiles r = manifestFiles r ∧ reservedFiles r = [] := by
  unfold nonReservedFiles reservedFiles manifestFiles
  constructor
  · rw [List.filter_eq_self]
    intro f hf
    obtain ⟨m, hm, rfl⟩ := List.mem_map.1 hf
    simpa using h m hm
  · rw [List.filter_eq_nil_iff]
    intro f hf
    obtain ⟨m, hm, rfl⟩ := List.mem_map.1 hf
    simpa using h m hm

theorem nonReservedFiles_of_all (r : Release) (h : ∀ m ∈ r.Manifests, underUserdata m.1) :
    nonReservedFiles r = [] ∧ reservedFiles r = manifestFiles r := by
  unfold nonReservedFiles reservedFiles manifestFiles
  constructor
  · rw [List.filter_eq_nil_iff]
    intro f hf
    obtain ⟨m, hm, rfl⟩ := List.mem_map.1 hf
    simpa using h m hm
  · rw [List.filter_eq_self]
    intro f hf
    obtain ⟨m, hm, rfl⟩ := List.mem_map.1 hf
    simpa using h m hm

/-- C1, as the spec states it, fails: `a//x.yaml` next to `b/y.yaml` shares no
directory segment with it, so nothing is removed and nothing can be prepended
again, and yet the path comes out as `a/x.yaml`.  Neither prepending the text
of the removed prefix nor joining the prefix on with `path.Join` gives the
manifests back. -/
theorem round_trip_fails_on_doubled_slash :
    (∀ m ∈ doubledSlashRelease.Manifests, ¬ underUserdata m.1) ∧
    removedPrefix doubledSlashRelease = [] ∧
    releaseToFiles doubledSlashRelease =
      .ok [{ Path := "a/x.yaml".toList, Content := [1] },
        { Path := "b/y.yaml".toList, Content := [2] }] ∧
    (¬ ∃ files, releaseToFiles doubledSlashRelease = .ok files ∧
      files.map (fun f => (prefixText (removedPrefix doubledSlashRelease) ++ f.Path, f.Content))
        = doubledSlashRelease.Manifests) ∧
    ¬ ∃ files, releaseToFiles doubledSlashRelease = .ok files ∧
      files.map (fun f => (pathJoin [pathJoin (removedPrefix doubledSlashRelease), f.Path],
        f.Content)) = doubledSlashRelease.Manifests := by
  have e : releaseToFiles doubledSlashRelease =
      .ok [{ Path := "a/x.yaml".toList, Content := [1] },
        { Path := "b/y.yaml".toList, Content := [2] }] := by decide
  refine ⟨by decide, by decide, e, ?_, ?_⟩
  · rintro ⟨files, h1, h2⟩
    rw [e] at h1
    cases h1
    revert h2
    decide
  · rintro ⟨files, h1, h2⟩
    rw [e] at h1
    cases h1
    revert h2
    decide

/-- C1, amended: for every release whose manifests all lie outside `userdata/`
and have clean relative paths (every slash-separated segment non-empty and
neither `.` nor `..`), `releaseToFiles` succeeds, and prepending the removed
common segment prefix to each path it returns gives back the manifests of the
release, paths and contents, in order.  This holds for the prefix prepended as
text, each segment followed by a slash, and for the prefix joined on with
`path.Join`. -/
theorem round_trip_on_clean_paths (r : Release)
    (hnr : ∀ m ∈ r.Manifests, ¬ underUserdata m.1)
    (hclean : ∀ m ∈ r.Manifests, CleanPath m.1) :
    ∃ files, releaseToFiles r = .ok files ∧
      files.map (fun f => (prefixText (removedPrefix r) ++ f.Path, f.Content)) = r.Manifests ∧
      files.map (fun f => (pathJoin [pathJoin (removedPrefix r), f.Path], f.Content))
        = r.Manifests := by
  obtain ⟨h1, h2⟩ := nonReservedFiles_of_none r hnr
  have hpre := removedPrefix_prefix r
  rw [h1] at hpre
  refine ⟨_, releaseToFiles_eq r, ?_⟩
  rw [h1, h2, List.append_nil]
  have hfiles : (match manifestFiles r with
      | [] => manifestFiles r
      | first :: rest => (first :: rest).map (stripSegments (removedPrefix r).length)) =
      (manifestFiles r).map (stripSegments (removedPrefix r).length) := by
    cases manifestFiles r <;> rfl
  rw [hfiles]
  unfold manifestFiles at hpre ⊢
  rw [List.map_map, List.map_map, List.map_map, List.map_map]
  constructor
  · conv_rhs => rw [← List.map_id r.Manifests]
    apply List.map_congr_left
    intro m hm
    have hp := hpre { Path := m.1, Content := m.2 } (List.mem_map.2 ⟨m, hm, rfl⟩)
    have := strip_round_trip m.1 m.2 (removedPrefix r) (hclean m hm) hp
    simp only [Function.comp, id]
    rw [this]
    rfl
  · conv_rhs => rw [← List.map_id r.Manifests]
    apply List.map_congr_left
    intro m hm
    have hp := hpre { Path := m.1, Content := m.2 } (List.mem_map.2 ⟨m, hm, rfl⟩)
    have := join_round_trip m.1 m.2 (removedPrefix r) (hclean m hm) hp
    simp only [Function.comp, id]
    rw [this]
    rfl

theorem round_trip_on_clean_paths_witness :
    (∀ m ∈ nestedRelease.Manifests, ¬ underUserdata m.1) ∧
    (∀ m ∈ nestedRelease.Manifests, CleanPath m.1) ∧
    removedPrefix nestedRelease = ["a".toList] ∧
    ∃ files, releaseToFiles nestedRelease = .ok files ∧
      files.map (fun f => (prefixText (removedPrefix nestedRelease) ++ f.Path, f.Content))
        = nestedRelease.Manifests ∧
      files.map (fun f => (pathJoin [pathJoin (removedPrefix nestedRelease), f.Path], f.Content))
        = nestedRelease.Manifests :=
  ⟨by decide, by decide, by decide,
    round_trip_on_clean_paths nestedRelease (by decide) (by decide)⟩

/-- C2: for every release and every manifest of it whose path lies under
`userdata/`, `releaseToFiles` succeeds and the files it returns contain a file
with exactly that path and that content, whatever the other manifests are. -/
theorem reserved_file_untouched (r : Release) (p : GoString) (c : Bytes)
    (hm : (p, c) ∈ r.Manifests) (hp : underUserdata p) :
    ∃ files, releaseToFiles r = .ok files ∧
      ({ Path := p, Content := c } : UpstreamFile) ∈ files := by
  refine ⟨_, releaseToFiles_eq r, ?_⟩
  apply List.mem_append_right
  unfold reservedFiles manifestFiles
  rw [List.mem_filter]
  exact ⟨List.mem_map.2 ⟨(p, c), hm, rfl⟩, by simpa using hp⟩

theorem reserved_file_untouched_witness :
    ("userdata/config.yaml".toList, [2]) ∈ mixedRelease.Manifests ∧
    underUserdata "userdata/config.yaml".toList ∧
    ∃ files, releaseToFiles mixedRelease = .ok files ∧
      ({ Path := "userdata/config.yaml".toList, Content := [2] } : UpstreamFile) ∈ files :=
  ⟨by decide, by decide, reserved_file_untouched mixedRelease _ _ (by decide) (by decide)⟩

/-- C3 fails on the code: for every release all of whose manifests lie under
`userdata/`, `releaseToFiles` succeeds and returns the files of the release
followed by the same files once more, so every manifest comes out twice. -/
theorem all_reserved_release_is_doubled (r : Release)
    (h : ∀ m ∈ r.Manifests, underUserdata m.1) :
    releaseToFiles r = .ok (manifestFiles r ++ manifestFiles r) := by
  obtain ⟨h1, h2⟩ := nonReservedFiles_of_all r h
  rw [releaseToFiles_eq, h1, h2]

theorem all_reserved_release_is_doubled_witness :
    (∀ m ∈ userdataOnlyRelease.Manifests, underUserdata m.1) ∧
    releaseToFiles userdataOnlyRelease =
      .ok [{ Path := "userdata/config.yaml".toList, Content := [7] },
        { Path := "userdata/config.yaml".toList, Content := [7] }] ∧
    releaseToFiles userdataOnlyRelease ≠ .ok (manifestFiles userdataOnlyRelease) :=
  ⟨by decide, all_reserved_release_is_doubled userdataOnlyRelease (by decide), by decide⟩

/-- C4: for every release with at least one file outside `userdata/`, the
segments that `releaseToFiles` removes are the longest common prefix, segment
by segment, of the directory segments of the files outside `userdata/`; the
result is each of these files, in order, with that many leading directory
segments removed and the rest rejoined with the file name, followed by the
files under `userdata/`. -/
theorem longest_common_prefix_stripped (r : Release) (h : nonReservedFiles r ≠ []) :
    IsLongestCommonPrefix (removedPrefix r)
        ((nonReservedFiles r).map (fun f => dirSegments f.Path)) ∧
      releaseToFiles r =
        .ok ((nonReservedFiles r).map (stripSegments (removedPrefix r).length)
          ++ reservedFiles r) := by
  have heq := releaseToFiles_eq r
  have hrem := removedPrefix_eq r
  cases hnr : nonReservedFiles r with
  | nil => exact absurd hnr h
  | cons first rest =>
    rw [hnr] at heq hrem
    simp only at heq hrem
    refine ⟨⟨?_, ?_⟩, heq⟩
    · intro d hd
      obtain ⟨f, hf, rfl⟩ := List.mem_map.1 hd
      rw [hrem]
      exact foldCommonPrefix_prefix_mem _ _ f hf
    · intro q hq
      rw [hrem]
      apply prefix_foldCommonPrefix
      · exact hq _ (List.mem_map.2 ⟨first, by simp, rfl⟩)
      · intro f hf
        exact hq _ (List.mem_map.2 ⟨f, hf, rfl⟩)

theorem longest_common_prefix_stripped_witness :
    nonReservedFiles nestedRelease ≠ [] ∧
    removedPrefix nestedRelease = ["a".toList] ∧
    releaseToFiles nestedRelease =
      .ok [{ Path := "b/x.yaml".toList, Content := [1] },
        { Path := "c.yaml".toList, Content := [2] }] ∧
    nonReservedFiles siblingRelease ≠ [] ∧
    removedPrefix siblingRelease = [] ∧
    releaseToFiles siblingRelease =
      .ok [{ Path := "app1/x.yaml".toList, Content := [1] },
        { Path := "app2/y.yaml".toList, Content := [2] }] ∧
    nonReservedFiles mixedRelease ≠ [] ∧
    releaseToFiles mixedRelease =
      .ok [{ Path := "a.yaml".toList, Content := [1] },
        { Path := "b/c.yaml".toList, Content := [3] },
        { Path := "userdata/config.yaml".toList, Content := [2] }] :=
  ⟨by decide, by decide,
    (longest_common_prefix_stripped nestedRelease (by decide)).2.trans (by decide),
    by decide, by decide,
    (longest_common_prefix_stripped siblingRelease (by decide)).2.trans (by decide),
    by decide,
    (longest_common_prefix_stripped mixedRelease (by decide)).2.trans (by decide)⟩

theorem stringsTrimPrefix_slash (p : GoString) :
    stringsTrimPrefix p ['/'] = trimLeadingSlash p := by
  cases p with
  | nil => rfl
  | cons c cs =>
    by_cases h : c = '/'
    · subst h
      simp [stringsTrimPrefix, trimLeadingSlash]
    · have hbeq : ('/' == c) = false := by simpa using fun e : '/' = c => h e.symm
      have e1 : stringsTrimPrefix (c :: cs) ['/'] = c :: cs := by
        simp [stringsTrimPrefix, List.isPrefixOf, hbeq]
      rw [e1]
      unfold trimLeadingSlash
      split
      · next heq => exact absurd (List.cons.inj heq).1 h
      · rfl

/-- C6: for every parsed URI `parseReplicatedURL` succeeds.  When the URI has
user-info with a non-empty user name, the result has that user name as
`AppSlug`, the host name as `VersionLabel` and no `Channel`.  Otherwise it has
the host name as `AppSlug`, no `VersionLabel`, and a `Channel` exactly when the
path is not empty, which then is the path without its leading `/`; so
`myapp/unstable` gives `AppSlug` `myapp` and `Channel` `unstable`. -/
theorem parse_url_rule :
    (∀ u : URL, parseReplicatedURL u = .ok
      (if u.User ≠ none ∧ Username u.User ≠ [] then
        { Channel := none, AppSlug := Username u.User, VersionLabel := some u.Hostname,
          Sequence := none }
      else
        { Channel := if u.Path = [] then none else some (trimLeadingSlash u.Path),
          AppSlug := u.Hostname, VersionLabel := none, Sequence := none })) ∧
    parseReplicatedURL channelURL = .ok
      { Channel := some "unstable".toList, AppSlug := "myapp".toList, VersionLabel := none,
        Sequence := none } := by
  refine ⟨?_, rfl⟩
  intro u
  unfold parseReplicatedURL
  by_cases h1 : u.User = none
  · by_cases h3 : u.Path = [] <;> simp [h1, h3, stringsTrimPrefix_slash]
  · by_cases h2 : Username u.User = []
    · by_cases h3 : u.Path = [] <;> simp [h1, h2, h3, stringsTrimPrefix_slash]
    · simp [h1, h2]

/-- C7, as the spec states it, fails: for `replicated://label@myapp` the code
does not return `AppSlug` `myapp` with `VersionLabel` `label`. -/
theorem label_at_myapp_not_swapped :
    ¬ ∃ r, parseReplicatedURL labelAtMyappURL = .ok r ∧
      r.AppSlug = "myapp".toList ∧ r.VersionLabel = some "label".toList := by
  rintro ⟨r, h, happ, _⟩
  have e : parseReplicatedURL labelAtMyappURL = .ok
      { Channel := none, AppSlug := "label".toList, VersionLabel := some "myapp".toList,
        Sequence := none } := rfl
  rw [e] at h
  cases h
  revert happ
  decide

/-- C7, amended: for a URI with user-info whose user name is not empty, the
part before `@` (the user name) becomes the `AppSlug` and the part after it
(the host name) the `VersionLabel`, and there is no `Channel`. -/
theorem user_is_app_host_is_label (u : URL) (user : Userinfo)
    (huser : u.User = some user) (hname : user.username ≠ []) :
    parseReplicatedURL u = .ok
      { Channel := none, AppSlug := user.username, VersionLabel := some u.Hostname,
        Sequence := none } := by
  unfold parseReplicatedURL
  simp [huser, Username, hname]

theorem user_is_app_host_is_label_witness :
    parseReplicatedURL labelAtMyappURL = .ok
      { Channel := none, AppSlug := "label".toList, VersionLabel := some "myapp".toList,
        Sequence := none } :=
  user_is_app_host_is_label labelAtMyappURL { username := "label".toList, password := none }
    rfl (by decide)

theorem GoError.depth_pos : ∀ e : GoError, 1 ≤ e.depth
  | .errUnauthorizedForCredentials => by simp [GoError.depth]
  | .errorString _ => by simp [GoError.depth]
  | .errcodeError _ _ => by simp [GoError.depth]
  | .errcodeErrors _ => by simp [GoError.depth]
  | .wrapped _ _ => by simp [GoError.depth]

theorem GoError.depth_le_depthList (errs : List GoError) (x : GoError) (hx : x ∈ errs) :
    x.depth ≤ GoError.depthList errs := by
  induction errs with
  | nil => simp at hx
  | cons e es ih =>
    rw [GoError.depthList]
    rcases List.mem_cons.1 hx with rfl | h
    · exact le_max_left _ _
    · exact le_trans (ih h) (le_max_right _ _)

theorem GoError.cause_ne_wrapped : ∀ (e c : GoError) (m : String), e.Cause ≠ .wrapped c m
  | .errUnauthorizedForCredentials, _, _ => by simp [GoError.Cause]
  | .errorString _, _, _ => by simp [GoError.Cause]
  | .errcodeError _ _, _, _ => by simp [GoError.Cause]
  | .errcodeErrors _, _, _ => by simp [GoError.Cause]
  | .wrapped cause _, c, m => by
    rw [GoError.Cause]
    exact GoError.cause_ne_wrapped cause c m

theorem GoError.cause_cause (e : GoError) : e.Cause.Cause = e.Cause := by
  have h := GoError.cause_ne_wrapped e
  cases hc : e.Cause with
  | wrapped c m => exact absurd hc (h c m)
  | _ => simp [GoError.Cause]

theorem GoError.depth_cause_le : ∀ e : GoError, e.Cause.depth ≤ e.depth
  | .errUnauthorizedForCredentials => by simp [GoError.Cause]
  | .errorString _ => by simp [GoError.Cause]
  | .errcodeError _ _ => by simp [GoError.Cause]
  | .errcodeErrors _ => by simp [GoError.Cause]
  | .wrapped cause _ => by
    rw [GoError.Cause, GoError.depth]
    exact le_trans (GoError.depth_cause_le cause) (Nat.le_succ _)

theorem interfaceEq_cause_wrapped (c : GoError) (m : String) :
    interfaceEq c.Cause (.wrapped c m) = .ok false := by
  have h := GoError.cause_ne_wrapped c
  cases hc : c.Cause with
  | wrapped c' m' => exact absurd hc (h c' m')
  | _ => simp [interfaceEq, GoError.same]

/-- One turn of `isUnauthorized` on a wrapped error goes to its root cause. -/
theorem isUnauthorizedFuel_wrapped (fuel : Nat) (c : GoError) (m : String) :
    isUnauthorizedFuel (fuel + 1) (.wrapped c m) = isUnauthorizedFuel fuel c.Cause := by
  rw [isUnauthorizedFuel]
  · simp only [GoError.Cause, interfaceEq_cause_wrapped, bind, Except.bind]
    simp
  all_goals simp

/-- A result of `isUnauthorized` on an error, at every sufficient fuel, is its
result on the root cause of the error. -/
theorem isUnauthorizedFuel_cause (c : GoError) (r : Go Bool)
    (h : ∀ n, c.depth ≤ n → isUnauthorizedFuel n c = r) :
    ∀ k, c.depth ≤ k → isUnauthorizedFuel k c.Cause = r := by
  intro k hk
  cases c with
  | wrapped c' m' =>
    have := h (k + 1) (Nat.le_succ_of_le hk)
    rw [isUnauthorizedFuel_wrapped] at this
    simpa [GoError.Cause] using this
  | _ => simpa [GoError.Cause] using h k hk

theorem isUnauthorizedFuel_plain (x : GoError) (hx : PlainFailure x) :
    ∀ n, x.depth ≤ n → isUnauthorizedFuel n x = .ok false := by
  have leaf : ∀ k, 1 ≤ k → isUnauthorizedFuel k x.Cause = .ok false := by
    intro k hk
    obtain ⟨j, rfl⟩ : ∃ j, k = j + 1 := ⟨k - 1, by omega⟩
    rcases hx with ⟨msg, h⟩ | ⟨status, msg, h, hne⟩
    · rw [h, isUnauthorizedFuel]
      · simp [GoError.Cause, interfaceEq, GoError.same, bind, Except.bind]
      all_goals simp
    · rw [h, isUnauthorizedFuel]
      simp [hne]
  intro n hn
  cases x with
  | wrapped c m =>
    obtain ⟨j, rfl⟩ : ∃ j, n = j + 1 := ⟨n - 1, by have := GoError.depth_pos (.wrapped c m); omega⟩
    rw [isUnauthorizedFuel_wrapped]
    have h1 : 1 ≤ j := by
      have := GoError.depth_pos c
      rw [GoError.depth] at hn
      omega
    simpa [GoError.Cause] using leaf j h1
  | _ =>
    have := leaf n (le_trans (GoError.depth_pos _) hn)
    simpa [GoError.Cause] using this

theorem firstTrue_member (f : GoError → Go Bool) (before : List GoError) (e : GoError)
    (after : List GoError) (hb : ∀ x ∈ before, f x = .ok false) (he : f e = .ok true) :
    firstTrue f (before ++ e :: after) = .ok true := by
  induction before with
  | nil => simp [firstTrue, he, bind, Except.bind]
  | cons x rest ih =>
    rw [List.cons_append, firstTrue, hb x (by simp)]
    simpa [bind, Except.bind] using ih (fun y hy => hb y (by simp [hy]))

/-- A leading authorization failure is an authorization failure. -/
theorem LeadingAuthorizationFailure.authorizationFailure (e : GoError)
    (h : LeadingAuthorizationFailure e) : AuthorizationFailure e := by
  induction h with
  | unauthorizedForCredentials => exact .unauthorizedForCredentials
  | status401 message => exact .status401 message
  | wrapped cause msg _ ih => exact .wrapped cause msg ih
  | member before e after _ _ ih => exact .member before e after ih

theorem isUnauthorizedFuel_authorization (e : GoError) (h : LeadingAuthorizationFailure e) :
    ∀ n, e.depth ≤ n → isUnauthorizedFuel n e = .ok true := by
  induction h with
  | unauthorizedForCredentials =>
    intro n hn
    obtain ⟨j, rfl⟩ : ∃ j, n = j + 1 := ⟨n - 1, by simp [GoError.depth] at hn; omega⟩
    simp [isUnauthorizedFuel]
  | status401 message =>
    intro n hn
    obtain ⟨j, rfl⟩ : ∃ j, n = j + 1 := ⟨n - 1, by simp [GoError.depth] at hn; omega⟩
    simp [isUnauthorizedFuel]
  | wrapped cause msg _ ih =>
    intro n hn
    rw [GoError.depth] at hn
    obtain ⟨j, rfl⟩ : ∃ j, n = j + 1 := ⟨n - 1, by omega⟩
    rw [isUnauthorizedFuel_wrapped]
    exact isUnauthorizedFuel_cause cause _ ih j (by omega)
  | member before e after hbefore _ ih =>
    intro n hn
    rw [GoError.depth] at hn
    obtain ⟨j, rfl⟩ : ∃ j, n = j + 1 := ⟨n - 1, by omega⟩
    have hj : GoError.depthList (before ++ e :: after) ≤ j := by omega
    have h1 : firstTrue (isUnauthorizedFuel j) (before ++ e :: after) = .ok true := by
      apply firstTrue_member
      · intro x hx
        exact isUnauthorizedFuel_plain x (hbefore x hx) j
          (le_trans (GoError.depth_le_depthList _ x (by simp [hx])) hj)
      · exact ih j (le_trans (GoError.depth_le_depthList _ e (by simp)) hj)
    rw [isUnauthorizedFuel]
    simp [h1, bind, Except.bind]

theorem isUnauthorized_authorization (e : GoError) (h : LeadingAuthorizationFailure e) :
    isUnauthorized e = .ok true :=
  isUnauthorizedFuel_authorization e h _ (le_refl _)

theorem isUnauthorized_plain (e : GoError) (h : PlainFailure e) :
    isUnauthorized e = .ok false :=
  isUnauthorizedFuel_plain e h _ (le_refl _)

theorem firstTrue_ne_fuel (f : GoError → Go Bool) (errs : List GoError)
    (h : ∀ x ∈ errs, f x ≠ .error .fuel) : firstTrue f errs ≠ .error .fuel := by
  induction errs with
  | nil => simp [firstTrue]
  | cons e rest ih =>
    rw [firstTrue]
    have he := h e (by simp)
    have hrest := ih (fun x hx => h x (by simp [hx]))
    cases hfe : f e with
    | error fault =>
      rw [hfe] at he
      simpa [bind, Except.bind] using he
    | ok b =>
      cases b
      · simpa [bind, Except.bind] using hrest
      · simp [bind, Except.bind]

theorem isUnauthorizedFuel_ne_fuel (n : Nat) :
    ∀ e : GoError, e.depth ≤ n → isUnauthorizedFuel n e ≠ .error .fuel := by
  induction n with
  | zero =>
    intro e he
    have := GoError.depth_pos e
    omega
  | succ k ih =>
    intro e he
    cases e with
    | errUnauthorizedForCredentials => simp [isUnauthorizedFuel]
    | errorString msg =>
      rw [isUnauthorizedFuel]
      · simp [GoError.Cause, interfaceEq, GoError.same, bind, Except.bind]
      all_goals simp
    | errcodeError status msg => simp [isUnauthorizedFuel]
    | errcodeErrors errs =>
      rw [GoError.depth] at he
      have hft := firstTrue_ne_fuel (isUnauthorizedFuel k) errs
        (fun x hx => ih x (le_trans (GoError.depth_le_depthList errs x hx) (by omega)))
      rw [isUnauthorizedFuel]
      cases hfe : firstTrue (isUnauthorizedFuel k) errs with
      | error fault =>
        rw [hfe] at hft
        simpa [bind, Except.bind] using hft
      | ok b =>
        cases b <;> simp [bind, Except.bind, GoError.Cause, interfaceEq]
    | wrapped c m =>
      rw [GoError.depth] at he
      rw [isUnauthorizedFuel_wrapped]
      exact ih _ (le_trans (GoError.depth_cause_le c) (by omega))

/-- The recursion of `isUnauthorized` has fuel enough: it never stops for want
of fuel. -/
theorem isUnauthorized_ne_fuel (e : GoError) : isUnauthorized e ≠ .error .fuel :=
  isUnauthorizedFuel_ne_fuel _ e (le_refl _)

theorem findPrivateLoop_classified (registry : Registry) (images : List GoString)
    (result : List Image)
    (hprobe : ∀ image ∈ images, ∃ ref, registry.ParseReference ("//".toList ++ image) = .ok ref ∧
      (registry.NewImage ref = none ∨
        ∃ err, registry.NewImage ref = some err ∧ LeadingAuthorizationFailure err)) :
    findPrivateLoop registry images result =
      .ok (.ok (result ++ (images.filter (probeFails registry)).map (fun name => { Name := name }))) := by
  induction images generalizing result with
  | nil => simp [findPrivateLoop]
  | cons image rest ih =>
    obtain ⟨ref, href, hnew⟩ := hprobe image (by simp)
    have hrest := fun result => ih result (fun i hi => hprobe i (by simp [hi]))
    rw [findPrivateLoop]
    simp only [href]
    rcases hnew with hnone | ⟨err, hsome, hauth⟩
    · have hp : probeFails registry image = false := by
        unfold probeFails
        rw [href]
        simp only [hnone]
        rfl
      simp only [hnone]
      rw [hrest, List.filter_cons, hp]
      simp
    · have hp : probeFails registry image = true := by
        unfold probeFails
        rw [href]
        simp only [hsome]
        rfl
      simp only [hsome, isUnauthorized_authorization err hauth]
      rw [hrest, List.filter_cons, hp]
      simp

/-- The part of C8 that holds: for every list of image references in which each
anonymous probe either succeeds or fails with a leading authorization failure
(given directly, beneath any number of wrapping layers, or as a member of a
multi-error aggregate in which no aggregate comes before it),
`FindPrivateImages` returns, without error, exactly the references whose probe
failed, in the order of the input. -/
theorem private_images_classified (registry : Registry) (u : Upstream)
    (options : FindPrivateImagesOptions) (images : List GoString)
    (hget : registry.GetImages (upstreamDir u options) = .ok images)
    (hprobe : ∀ image ∈ images, ∃ ref, registry.ParseReference ("//".toList ++ image) = .ok ref ∧
      (registry.NewImage ref = none ∨
        ∃ err, registry.NewImage ref = some err ∧ LeadingAuthorizationFailure err)) :
    FindPrivateImages registry u options =
      .ok (.ok ((images.filter (probeFails registry)).map (fun name => { Name := name }))) := by
  rw [FindPrivateImages, hget]
  simpa using findPrivateLoop_classified registry images [] hprobe

theorem thriceWrapped_authorization : LeadingAuthorizationFailure thriceWrappedUnauthorized :=
  .wrapped _ _ (.wrapped _ _ (.wrapped _ _ .unauthorizedForCredentials))

theorem aggregate_authorization : LeadingAuthorizationFailure aggregateWithUnauthorized :=
  .member [.errcodeError 404 "manifest unknown"] _ []
    (by
      intro x hx
      simp only [List.mem_singleton] at hx
      subst hx
      exact Or.inr ⟨404, _, rfl, by decide⟩)
    (.status401 _)

theorem private_images_classified_witness :
    FindPrivateImages guardedRegistry exampleUpstream exampleOptions =
      .ok (.ok [{ Name := "registry.example.com/api:2".toList },
        { Name := "registry.example.com/db:3".toList }]) :=
  private_images_classified guardedRegistry exampleUpstream exampleOptions
    ["nginx:1.17".toList, "registry.example.com/api:2".toList, "registry.example.com/db:3".toList]
    rfl
    (by
      intro image himage
      simp only [List.mem_cons, List.mem_singleton, List.not_mem_nil, or_false] at himage
      rcases himage with rfl | rfl | rfl
      · exact ⟨_, rfl, Or.inl rfl⟩
      · exact ⟨_, rfl, Or.inr ⟨_, rfl, thriceWrapped_authorization⟩⟩
      · exact ⟨_, rfl, Or.inr ⟨_, rfl, aggregate_authorization⟩⟩)

/-- C8 fails on the code: a probe error that holds an authorization failure as
a member of a multi-error aggregate, behind a member that is itself an
aggregate (here `errcode.Errors{errcode.Errors{}, 401}`, and the authorization
failure of the registry behind an aggregate of a not-found error code), does
not make `isUnauthorized` return true: the scan of the earlier member panics at
`cause == err`, and `FindPrivateImages`, on a list whose one probe fails with
such an error, panics with it instead of returning the reference. -/
theorem authorization_behind_aggregate_panics :
    AuthorizationFailure aggregateBehindAggregate ∧
    AuthorizationFailure unauthorizedBehindNotFound ∧
    isUnauthorized aggregateBehindAggregate = .error .uncomparable ∧
    isUnauthorized unauthorizedBehindNotFound = .error .uncomparable ∧
    isUnauthorized (.wrapped aggregateBehindAggregate "creating image") =
      .error .uncomparable ∧
    nestingRegistry.GetImages (upstreamDir exampleUpstream exampleOptions) =
      .ok ["registry.example.com/api:2".toList] ∧
    nestingRegistry.ParseReference ("//".toList ++ "registry.example.com/api:2".toList) =
      .ok "//registry.example.com/api:2".toList ∧
    nestingRegistry.NewImage "//registry.example.com/api:2".toList =
      some aggregateBehindAggregate ∧
    FindPrivateImages nestingRegistry exampleUpstream exampleOptions =
      .error .uncomparable := by
  refine ⟨.member [.errcodeErrors []] _ [] (.status401 _),
    .member [aggregateNotFound] _ [] .unauthorizedForCredentials,
    by decide, by decide, by decide, rfl, rfl, rfl, ?_⟩
  rfl

/-- C9 fails on the code: on an aggregate none of whose members is an
authorization failure (here a single not-found error code, and the empty
aggregate), `isUnauthorized` does not return false but panics at
`cause == err`, and `FindPrivateImages` panics with it instead of returning an
error. -/
theorem aggregate_without_authorization_panics :
    isUnauthorized aggregateNotFound = .error .uncomparable ∧
    isUnauthorized (.errcodeErrors []) = .error .uncomparable ∧
    isUnauthorized (.wrapped aggregateNotFound "fetching manifest") = .error .uncomparable ∧
    FindPrivateImages forgetfulRegistry exampleUpstream exampleOptions = .error .uncomparable := by
  refine ⟨by decide, by decide, by decide, ?_⟩
  rfl

/-- The part of C9 that holds: a probe that fails with a plain failure makes
`FindPrivateImages` return an error. -/
theorem plain_failure_is_fatal (registry : Registry) (u : Upstream)
    (options : FindPrivateImagesOptions) (image : GoString) (rest : List GoString)
    (ref : GoString) (err : GoError)
    (hget : registry.GetImages (upstreamDir u options) = .ok (image :: rest))
    (href : registry.ParseReference ("//".toList ++ image) = .ok ref)
    (hnew : registry.NewImage ref = some err) (hplain : PlainFailure err) :
    isUnauthorized err = .ok false ∧
    FindPrivateImages registry u options =
      .ok (.error (.wrapped err ("failed to create image from ref:" ++ String.mk image))) := by
  refine ⟨isUnauthorized_plain err hplain, ?_⟩
  simp only [FindPrivateImages, hget, findPrivateLoop, href, hnew,
    isUnauthorized_plain err hplain]

theorem mapGet_mapSet {ν : Type} (m : List (GoString × ν)) (k k' : GoString) (v : ν) :
    mapGet (mapSet m k v) k' = if k = k' then some v else mapGet m k' := by
  induction m with
  | nil => simp [mapSet, mapGet]
  | cons e rest ih =>
    obtain ⟨k0, v0⟩ := e
    by_cases h0 : k0 = k
    · subst h0
      by_cases h1 : k0 = k' <;> simp [mapSet, mapGet, h1]
    · by_cases h1 : k0 = k'
      · subst h1
        have : ¬ k = k0 := fun e => h0 e.symm
        simp [mapSet, mapGet, h0, this]
      · simp [mapSet, mapGet, h0, h1, ih]

theorem lastItemNamed_cons (item : ConfigItem) (rest : List ConfigItem) (k : GoString) :
    lastItemNamed (item :: rest) k =
      (lastItemNamed rest k).or (if item.Name = k ∧ item.Value ≠ [] then some item else none) := by
  unfold lastItemNamed
  rw [List.filter_cons]
  by_cases h : item.Name = k ∧ item.Value ≠ []
  · have hd : decide (item.Name = k ∧ item.Value ≠ []) = true := by simpa using h
    rw [if_pos hd, if_pos h]
    rw [show item :: List.filter (fun i => decide (i.Name = k ∧ i.Value ≠ [])) rest =
      [item] ++ List.filter (fun i => decide (i.Name = k ∧ i.Value ≠ [])) rest from rfl,
      List.getLast?_append]
    rfl
  · have hd : ¬ decide (item.Name = k ∧ item.Value ≠ []) = true := by simpa using h
    rw [if_neg hd, if_neg h]
    simp

theorem lastItemNamed_append (a b : List ConfigItem) (k : GoString) :
    lastItemNamed (a ++ b) k = (lastItemNamed b k).or (lastItemNamed a k) := by
  unfold lastItemNamed
  rw [List.filter_append, List.getLast?_append]

/-- The value that the map holds for `k` once the items `items` have been
rendered into `values`. -/
theorem renderItems_ok (render : Renderer) (items : List ConfigItem)
    (values : List (GoString × GoString))
    (hok : ∀ item ∈ items, item.Value ≠ [] → ∃ s, render item.Name item.Value = .ok s) :
    ∃ values', renderItems render items values = .ok values' ∧
      ∀ k, mapGet values' k =
        match lastItemNamed items k with
        | some item => (render item.Name item.Value).toOption
        | none => mapGet values k := by
  induction items generalizing values with
  | nil => exact ⟨values, rfl, fun k => rfl⟩
  | cons item rest ih =>
    have hrest : ∀ i ∈ rest, i.Value ≠ [] → ∃ s, render i.Name i.Value = .ok s :=
      fun i hi => hok i (by simp [hi])
    by_cases hv : item.Value = []
    · obtain ⟨values', h1, h2⟩ := ih values hrest
      refine ⟨values', by rw [renderItems]; simp [hv, h1], ?_⟩
      intro k
      rw [h2 k, lastItemNamed_cons]
      simp [hv]
    · obtain ⟨s, hs⟩ := hok item (by simp) hv
      obtain ⟨values', h1, h2⟩ := ih (mapSet values item.Name s) hrest
      refine ⟨values', by rw [renderItems]; simp [hv, hs, h1], ?_⟩
      intro k
      rw [h2 k, lastItemNamed_cons, mapGet_mapSet]
      cases hl : lastItemNamed rest k with
      | some i => simp
      | none =>
        by_cases hk : item.Name = k
        · subst hk
          simp [hv, hs, Except.toOption]
        · simp [hk]

theorem renderGroups_ok (render : Renderer) (groups : List ConfigGroup)
    (values : List (GoString × GoString))
    (hok : ∀ item ∈ groups.flatMap (fun g => g.Items), item.Value ≠ [] →
      ∃ s, render item.Name item.Value = .ok s) :
    ∃ values', renderGroups render groups values = .ok values' ∧
      ∀ k, mapGet values' k =
        match lastItemNamed (groups.flatMap (fun g => g.Items)) k with
        | some item => (render item.Name item.Value).toOption
        | none => mapGet values k := by
  induction groups generalizing values with
  | nil => exact ⟨values, rfl, fun k => rfl⟩
  | cons group rest ih =>
    rw [List.flatMap_cons] at hok
    obtain ⟨v1, h1, h1'⟩ := renderItems_ok render group.Items values
      (fun i hi => hok i (by simp [hi]))
    obtain ⟨v2, h2, h2'⟩ := ih v1 (fun i hi => hok i (List.mem_append_right _ hi))
    refine ⟨v2, by rw [renderGroups, h1]; exact h2, ?_⟩
    intro k
    rw [h2' k, List.flatMap_cons, lastItemNamed_append, h1' k]
    cases lastItemNamed (rest.flatMap (fun g => g.Items)) k <;> simp

theorem renderItems_error (render : Renderer) (items : List ConfigItem)
    (values : List (GoString × GoString))
    (hbad : ∃ item ∈ items, item.Value ≠ [] ∧ ∃ e, render item.Name item.Value = .error e) :
    ∃ err, renderItems render items values = .error err := by
  induction items generalizing values with
  | nil => simp at hbad
  | cons item rest ih =>
    rw [renderItems]
    by_cases hv : item.Value = []
    · obtain ⟨i, hi, hiv, hie⟩ := hbad
      rcases List.mem_cons.1 hi with rfl | hi'
      · exact absurd hv hiv
      · simp only [hv, ne_eq, not_true_eq_false, if_false]
        exact ih values ⟨i, hi', hiv, hie⟩
    · simp only [ne_eq, hv, not_false_eq_true, if_true]
      cases hr : render item.Name item.Value with
      | error e => exact ⟨_, rfl⟩
      | ok s =>
        obtain ⟨i, hi, hiv, e, hie⟩ := hbad
        rcases List.mem_cons.1 hi with rfl | hi'
        · rw [hr] at hie; cases hie
        · exact ih _ ⟨i, hi', hiv, e, hie⟩

theorem renderGroups_error (render : Renderer) (groups : List ConfigGroup)
    (values : List (GoString × GoString))
    (hbad : ∃ item ∈ groups.flatMap (fun g => g.Items), item.Value ≠ [] ∧
      ∃ e, render item.Name item.Value = .error e) :
    ∃ err, renderGroups render groups values = .error err := by
  induction groups generalizing values with
  | nil => simp at hbad
  | cons group rest ih =>
    rw [renderGroups]
    cases h1 : renderItems render group.Items values with
    | error e => exact ⟨_, rfl⟩
    | ok v1 =>
      obtain ⟨i, hi, hiv, hie⟩ := hbad
      rw [List.flatMap_cons] at hi
      rcases List.mem_append.1 hi with hi' | hi'
      · obtain ⟨err, herr⟩ := renderItems_error render group.Items values ⟨i, hi', hiv, hie⟩
        rw [h1] at herr
        cases herr
      · exact ih v1 ⟨i, hi', hiv, hie⟩

/-- C10, as the spec states it, fails: a schema with two items of one name,
with the templates `foo` and `bar`, gives a mapping with one entry for the two
items, and the entry does not hold the rendered template `foo` of the first. -/
theorem repeated_item_name_single_entry :
    ∃ cv, createEmptyConfigValues literalRenderer "app".toList repeatedItemConfig = .ok cv ∧
      cv.Values = [("item".toList, "bar".toList)] ∧
      (repeatedItemConfig.items.filter (fun i => decide (i.Value ≠ []))).length = 2 ∧
      ({ Name := "item".toList, Value := "foo".toList } : ConfigItem) ∈ repeatedItemConfig.items ∧
      mapGet cv.Values "item".toList ≠ some "foo".toList :=
  ⟨_, rfl, rfl, by decide, by decide, by decide⟩

/-- C10, amended: for every application name and configuration schema, when
every render succeeds `createEmptyConfigValues` returns a `ConfigValues` named
after the application whose `Values` mapping holds, for each name, the rendered
template of the last item of that name that carries a non-empty template, and
no entry for a name that no such item bears (so one entry per item when the
names are distinct); and if rendering an item with a non-empty template fails,
the result is an error and no `ConfigValues`. -/
theorem config_values_last_item_wins (render : Renderer) (applicationName : GoString)
    (config : Config) :
    ((∀ item ∈ config.items, item.Value ≠ [] → ∃ s, render item.Name item.Value = .ok s) →
      ∃ values, createEmptyConfigValues render applicationName config =
          .ok { APIVersion := "kots.io/v1beta1".toList, Kind := "ConfigValues".toList,
                Name := applicationName, Values := values } ∧
        ∀ k, mapGet values k = lastRendered render config.items k) ∧
    ((∃ item ∈ config.items, item.Value ≠ [] ∧ ∃ e, render item.Name item.Value = .error e) →
      ∃ err, createEmptyConfigValues render applicationName config = .error err) := by
  constructor
  · intro hok
    obtain ⟨values, h1, h2⟩ := renderGroups_ok render config.Groups [] hok
    refine ⟨values, by rw [createEmptyConfigValues, h1], ?_⟩
    intro k
    rw [h2 k, lastRendered]
    unfold Config.items
    cases lastItemNamed (config.Groups.flatMap (fun g => g.Items)) k <;> rfl
  · intro hbad
    obtain ⟨err, herr⟩ := renderGroups_error render config.Groups [] hbad
    exact ⟨err, by rw [createEmptyConfigValues, herr]⟩

theorem config_values_last_item_wins_witness :
    (∀ item ∈ singleItemConfig.items, item.Value ≠ [] →
      ∃ s, literalRenderer item.Name item.Value = .ok s) ∧
    createEmptyConfigValues literalRenderer "app".toList singleItemConfig =
      .ok { APIVersion := "kots.io/v1beta1".toList, Kind := "ConfigValues".toList,
            Name := "app".toList, Values := [("item".toList, "foo".toList)] } ∧
    ∃ values, createEmptyConfigValues literalRenderer "app".toList singleItemConfig =
        .ok { APIVersion := "kots.io/v1beta1".toList, Kind := "ConfigValues".toList,
              Name := "app".toList, Values := values } ∧
      ∀ k, mapGet values k = lastRendered literalRenderer singleItemConfig.items k :=
  ⟨fun item _ _ => ⟨item.Value, rfl⟩, rfl,
    (config_values_last_item_wins literalRenderer "app".toList singleItemConfig).1
      (fun item _ _ => ⟨item.Value, rfl⟩)⟩

/-- C5 fails on the code: for every reference and license, when the request is
built and the HEAD probe answers with status 401, `getSuccessfulHeadResponse`
returns a nil license together with a nil error, as `errors.Wrap` of a nil
error is nil; `downloadReplicated` then goes on to `downloadReplicatedApp` with
the nil license, which panics when it builds its request. -/
theorem head_401_returns_nil_error (w : World) (u : URL)
    (replicatedUpstream : ReplicatedUpstream)
    (license : License) (headReq : Request) (headResp : Response)
    (hparse : parseReplicatedURL u = .ok replicatedUpstream)
    (hreq : getRequest w replicatedUpstream "HEAD".toList (some license) = .ok (.ok headReq))
    (hdo : w.Do headReq = .ok headResp) (hstatus : headResp.StatusCode = 401) :
    getSuccessfulHeadResponse w replicatedUpstream (some license) = .ok (none, none) ∧
    downloadReplicatedApp w replicatedUpstream none = .error .nilDereference ∧
    downloadReplicated w u [] (some license) = .error .nilDereference := by
  have h1 : getSuccessfulHeadResponse w replicatedUpstream (some license) = .ok (none, none) := by
    unfold getSuccessfulHeadResponse
    rw [hreq]
    simp only [hdo, hstatus, if_true, errorsWrap]
  have h2 : downloadReplicatedApp w replicatedUpstream none = .error .nilDereference := rfl
  refine ⟨h1, h2, ?_⟩
  unfold downloadReplicated obtainRelease
  simp only [ne_eq, not_true_eq_false, if_false, hparse, h1, h2]

theorem head_401_returns_nil_error_witness :
    parseReplicatedURL channelURL =
      .ok { Channel := some "unstable".toList, AppSlug := "myapp".toList,
            VersionLabel := none, Sequence := none } ∧
    (worldAnswering 401).Do
        { Method := "HEAD".toList, URL := "https://replicated.app/release/myapp/unstable".toList,
          Header := [("Authorization".toList, "Basic abc:abc".toList)] } =
      .ok { StatusCode := 401, Header := [], Body := [] } ∧
    getSuccessfulHeadResponse (worldAnswering 401)
        { Channel := some "unstable".toList, AppSlug := "myapp".toList,
          VersionLabel := none, Sequence := none } (some exampleLicense) = .ok (none, none) ∧
    downloadReplicated (worldAnswering 401) channelURL [] (some exampleLicense) =
      .error .nilDereference :=
  have h := head_401_returns_nil_error (worldAnswering 401) channelURL _ exampleLicense _ _
    rfl rfl rfl rfl
  ⟨rfl, rfl, h.1, h.2.2⟩

theorem findAppInContents_none (w : World) (contents : List Bytes)
    (h : ∀ c ∈ contents, decodesToApplication w c = false) :
    findAppInContents w contents = .ok none := by
  induction contents with
  | nil => rfl
  | cons c rest ih =>
    have hc := h c (by simp)
    have hrest := ih (fun x hx => h x (by simp [hx]))
    unfold decodesToApplication at hc
    rw [findAppInContents]
    cases hd : w.decode c with
    | error e => simpa using hrest
    | ok p =>
      obtain ⟨obj, gvk⟩ := p
      rw [hd] at hc
      simp only [decide_eq_false_iff_not] at hc
      simp only [hc, if_false]
      exact hrest

/-- When the loop of `findAppInRelease` finds no application, no content
decodes to an application descriptor. -/
theorem findAppInContents_none_decodes (w : World) (contents : List Bytes)
    (h : findAppInContents w contents = .ok none) :
    ∀ c ∈ contents, decodesToApplication w c = false := by
  induction contents with
  | nil => intro c hc; cases hc
  | cons c rest ih =>
    rw [findAppInContents] at h
    have key : decodesToApplication w c = false ∧ findAppInContents w rest = .ok none := by
      unfold decodesToApplication
      cases hd : w.decode c with
      | error e =>
        rw [hd] at h
        exact ⟨rfl, h⟩
      | ok p =>
        obtain ⟨obj, gvk⟩ := p
        rw [hd] at h
        simp only at h
        by_cases hk : gvk.Group = "kots.io".toList ∧ gvk.Version = "v1beta1".toList ∧
            gvk.Kind = "Application".toList
        · rw [if_pos hk] at h
          cases obj <;> cases h
        · rw [if_neg hk] at h
          exact ⟨by simp only [decide_eq_false_iff_not]; exact hk, h⟩
    intro x hx
    rcases List.mem_cons.1 hx with rfl | hx
    · exact key.1
    · exact ih key.2 x hx

/-- When the loop of `findAppInRelease` finds an application, it is what the
first manifest that decodes to an application descriptor holds. -/
theorem findAppInContents_found (w : World) (manifests : List (GoString × Bytes))
    (a : Application)
    (h : findAppInContents w (manifests.map (fun m => m.2)) = .ok (some a)) :
    ∃ before manifest after,
      manifests = before ++ manifest :: after ∧
      (∀ m ∈ before, decodesToApplication w m.2 = false) ∧
      w.decode manifest.2 = .ok (.application a, applicationKind) := by
  induction manifests with
  | nil => cases h
  | cons m rest ih =>
    rw [List.map_cons, findAppInContents] at h
    have skip : decodesToApplication w m.2 = false →
        findAppInContents w (rest.map (fun m => m.2)) = .ok (some a) →
        ∃ before manifest after,
          m :: rest = before ++ manifest :: after ∧
          (∀ x ∈ before, decodesToApplication w x.2 = false) ∧
          w.decode manifest.2 = .ok (.application a, applicationKind) := by
      intro hm hrest
      obtain ⟨before, manifest, after, hsplit, hbefore, hdecode⟩ := ih hrest
      refine ⟨m :: before, manifest, after, by rw [hsplit]; rfl, ?_, hdecode⟩
      intro x hx
      rcases List.mem_cons.1 hx with rfl | hx
      · exact hm
      · exact hbefore x hx
    cases hd : w.decode m.2 with
    | error e =>
      rw [hd] at h
      exact skip (by unfold decodesToApplication; rw [hd]) h
    | ok p =>
      obtain ⟨obj, gvk⟩ := p
      rw [hd] at h
      simp only at h
      by_cases hk : gvk.Group = "kots.io".toList ∧ gvk.Version = "v1beta1".toList ∧
          gvk.Kind = "Application".toList
      · rw [if_pos hk] at h
        cases obj with
        | application a' =>
          cases h
          refine ⟨[], m, rest, rfl, fun x hx => (by cases hx), ?_⟩
          rw [hd]
          obtain ⟨g, v, k⟩ := gvk
          obtain ⟨h1, h2, h3⟩ := hk
          simp only at h1 h2 h3
          subst h1 h2 h3
          rfl
        | config c => cases h
        | other => cases h
      · rw [if_neg hk] at h
        exact skip
          (by unfold decodesToApplication; rw [hd]; simp only [decide_eq_false_iff_not]; exact hk)
          h

theorem findAppInRelease_none (w : World) (release : Release)
    (h : ∀ m ∈ release.Manifests, decodesToApplication w m.2 = false) :
    findAppInRelease w release =
      .ok { APIVersion := "kots.io/v1beta1".toList, Kind := "Application".toList,
            Name := "replicated-kots-app".toList, Title := "Replicated Kots App".toList,
            Icon := [] } := by
  have := findAppInContents_none w (release.Manifests.map (fun m => m.2))
    (by
      intro c hc
      obtain ⟨m, hm, rfl⟩ := List.mem_map.1 hc
      exact h m hm)
  rw [findAppInRelease, this]

/-- C11: for every release in which no manifest decodes to a `kots.io/v1beta1`
`Application` (manifests that fail to decode are skipped without error),
`findAppInRelease` returns the application with the name `replicated-kots-app`,
the title `Replicated Kots App` and an empty icon. -/
theorem placeholder_application (w : World) (release : Release)
    (h : ∀ m ∈ release.Manifests, decodesToApplication w m.2 = false) :
    ∃ app, findAppInRelease w release = .ok app ∧
      app.Name = "replicated-kots-app".toList ∧
      app.Title = "Replicated Kots App".toList ∧ app.Icon = [] ∧
      app.APIVersion = "kots.io/v1beta1".toList ∧ app.Kind = "Application".toList :=
  ⟨_, findAppInRelease_none w release h, rfl, rfl, rfl, rfl, rfl⟩

theorem placeholder_application_witness :
    deploymentWorld.decode [0] = .error (.errorString "not a document") ∧
    (∀ m ∈ deploymentRelease.Manifests, decodesToApplication deploymentWorld m.2 = false) ∧
    ∃ app, findAppInRelease deploymentWorld deploymentRelease = .ok app ∧
      app.Name = "replicated-kots-app".toList ∧
      app.Title = "Replicated Kots App".toList ∧ app.Icon = [] ∧
      app.APIVersion = "kots.io/v1beta1".toList ∧ app.Kind = "Application".toList :=
  ⟨rfl, by decide, placeholder_application deploymentWorld deploymentRelease (by decide)⟩

theorem getRequest_eq (w : World) (r : ReplicatedUpstream) (method : GoString)
    (license : License) (u : URL) (hparse : w.urlParse license.Endpoint = .ok u) :
    getRequest w r method (some license) =
      match w.newRequest method (releaseURL u license.AppSlug r.Channel) with
      | some err => .ok (.error (.wrapped err "failed to call newrequest"))
      | none =>
        .ok (.ok { Method := method, URL := releaseURL u license.AppSlug r.Channel,
                   Header := [basicAuthorization w license.LicenseID] }) := by
  have hurl : (match r.Channel with
      | some channel =>
        u.Scheme ++ "://".toList ++
            (if u.Port ≠ [] then u.Hostname ++ ":".toList ++ u.Port else u.Hostname) ++
            "/release/".toList ++ license.AppSlug ++ "/".toList ++ channel
      | none =>
        u.Scheme ++ "://".toList ++
            (if u.Port ≠ [] then u.Hostname ++ ":".toList ++ u.Port else u.Hostname) ++
            "/release/".toList ++ license.AppSlug) =
      releaseURL u license.AppSlug r.Channel := by
    unfold releaseURL hostPort
    by_cases hp : u.Port = [] <;> cases r.Channel <;> simp [hp]
  unfold getRequest
  simp only [hparse]
  rw [hurl]
  rfl

/-- C13, as the spec states it, fails: for the reference resolved from
`replicated://myapp` and a license of the application `other`, the request
goes to `/release/other`, not to `/release/myapp`; two licenses that differ in
their application only give different requests; and a method that
`http.NewRequest` rejects gives an error instead of a request. -/
theorem request_names_application_of_license :
    myappReference.AppSlug = "myapp".toList ∧
    getRequest (worldAnswering 200) myappReference "GET".toList (some otherLicense) =
      .ok (.ok { Method := "GET".toList,
                 URL := "https://replicated.app/release/other".toList,
                 Header := [("Authorization".toList, "Basic abc:abc".toList)] }) ∧
    otherLicense.LicenseID = exampleLicense.LicenseID ∧
    otherLicense.Endpoint = exampleLicense.Endpoint ∧
    getRequest (worldAnswering 200) myappReference "GET".toList (some exampleLicense) =
      .ok (.ok { Method := "GET".toList,
                 URL := "https://replicated.app/release/myapp".toList,
                 Header := [("Authorization".toList, "Basic abc:abc".toList)] }) ∧
    getRequest strictWorld myappReference "BAD METHOD".toList (some exampleLicense) =
      .ok (.error (.wrapped (.errorString "net/http: invalid method")
        "failed to call newrequest")) :=
  ⟨rfl, rfl, rfl, rfl, rfl, rfl⟩

/-- C13, amended: for every reference `r`, method and license whose endpoint
parses, when `http.NewRequest` accepts the method and the address, `getRequest`
builds a request with that method to
`{scheme}://{host[:port]}/release/{appSlug}`, followed by `/{channel}` exactly
when `r.Channel` is set, where scheme, host and port come from the endpoint of
the license and the application slug is the one of the license, with the
header `Authorization` set to `Basic` and the base64 text of
`licenseID:licenseID`.  Of the reference only the channel influences the
request. -/
theorem request_construction (w : World) (r : ReplicatedUpstream) (method : GoString)
    (license : License) (u : URL) (hparse : w.urlParse license.Endpoint = .ok u)
    (hnew : w.newRequest method (releaseURL u license.AppSlug r.Channel) = none) :
    getRequest w r method (some license) =
        .ok (.ok { Method := method, URL := releaseURL u license.AppSlug r.Channel,
                   Header := [("Authorization".toList,
                     "Basic ".toList ++ w.base64 (license.LicenseID ++ [':'] ++ license.LicenseID))] }) ∧
      ∀ r' : ReplicatedUpstream, r'.Channel = r.Channel →
        getRequest w r' method (some license) = getRequest w r method (some license) := by
  constructor
  · rw [getRequest_eq w r method license u hparse, hnew]
    rfl
  · intro r' hr'
    rw [getRequest_eq w r method license u hparse, getRequest_eq w r' method license u hparse, hr']

theorem request_construction_witness :
    (worldAnswering 200).urlParse exampleLicense.Endpoint =
      .ok { Scheme := "https".toList, User := none, Hostname := "replicated.app".toList,
            Port := [], Path := [], RequestURI := "/".toList } ∧
    getRequest (worldAnswering 200)
        { Channel := some "unstable".toList, AppSlug := "ignored".toList, VersionLabel := none,
          Sequence := none } "HEAD".toList (some exampleLicense) =
      .ok (.ok { Method := "HEAD".toList,
                 URL := "https://replicated.app/release/myapp/unstable".toList,
                 Header := [("Authorization".toList, "Basic abc:abc".toList)] }) :=
  ⟨rfl, (request_construction (worldAnswering 200)
    { Channel := some "unstable".toList, AppSlug := "ignored".toList, VersionLabel := none,
      Sequence := none } "HEAD".toList exampleLicense _ rfl rfl).1⟩

theorem getApplicationMetadataFromHost_eq (w : World) (host : GoString) (upstream : URL)
    (r : ReplicatedUpstream) (resp : Response)
    (hparse : parseReplicatedURL upstream = .ok r)
    (hnew : w.newRequest "GET".toList (metadataURL host r) = none)
    (hdo : w.Do { Method := "GET".toList, URL := metadataURL host r, Header := [] } = .ok resp) :
    getApplicationMetadataFromHost w host upstream =
      if resp.StatusCode = 404 then .ok none
      else if resp.StatusCode ≥ 400 then
        .error (.errorString ("expected result from get request: " ++ toString resp.StatusCode))
      else .ok none := by
  unfold getApplicationMetadataFromHost
  rw [hparse]
  simp only [hnew, hdo]

/-- C14 fails on the code: when the primary host answers with a success status
and a body, `getApplicationMetadataFromHost` returns nil all the same, so
`GetApplicationMetadata` goes on to ask the fallback host and, when that one
answers with success or with 404, returns the built-in `DefaultMetadata`; the
body is never returned. -/
theorem metadata_body_is_dropped (w : World) (upstream : URL) (r : ReplicatedUpstream)
    (primary fallback : Response)
    (hparse : parseReplicatedURL upstream = .ok r)
    (hnew1 : w.newRequest "GET".toList (metadataURL "replicated.app".toList r) = none)
    (hdo1 : w.Do { Method := "GET".toList, URL := metadataURL "replicated.app".toList r,
                   Header := [] } = .ok primary)
    (hstatus1 : primary.StatusCode < 400)
    (hnew2 : w.newRequest "GET".toList (metadataURL "staging.replicated.app".toList r) = none)
    (hdo2 : w.Do { Method := "GET".toList, URL := metadataURL "staging.replicated.app".toList r,
                   Header := [] } = .ok fallback)
    (hstatus2 : fallback.StatusCode < 400 ∨ fallback.StatusCode = 404) :
    GetApplicationMetadata w upstream = .ok (stringBytes DefaultMetadata) := by
  have h1 : getApplicationMetadataFromHost w "replicated.app".toList upstream = .ok none := by
    rw [getApplicationMetadataFromHost_eq w _ upstream r primary hparse hnew1 hdo1]
    have a : ¬ primary.StatusCode = 404 := by omega
    have b : ¬ primary.StatusCode ≥ 400 := by omega
    rw [if_neg a, if_neg b]
  have h2 : getApplicationMetadataFromHost w "staging.replicated.app".toList upstream =
      .ok none := by
    rw [getApplicationMetadataFromHost_eq w _ upstream r fallback hparse hnew2 hdo2]
    rcases hstatus2 with h | h
    · have a : ¬ fallback.StatusCode = 404 := by omega
      have b : ¬ fallback.StatusCode ≥ 400 := by omega
      rw [if_neg a, if_neg b]
    · rw [if_pos h]
  unfold GetApplicationMetadata
  rw [h1]
  simp only [h2]

theorem metadata_body_is_dropped_witness :
    metadataWorld.Do
        ({ Method := "GET".toList, URL := "https://replicated.app/metadata/myapp/unstable".toList,
           Header := [] } : Request) =
      .ok { StatusCode := 200, Header := [], Body := [1, 2, 3] } ∧
    GetApplicationMetadata metadataWorld channelURL = .ok (stringBytes DefaultMetadata) ∧
    stringBytes DefaultMetadata ≠ [1, 2, 3] ∧
    GetApplicationMetadata brokenFallbackWorld channelURL =
      .error (.wrapped (.errorString "expected result from get request: 500")
        "failed to get metadata from staging.replicated.app") :=
  ⟨rfl,
    metadata_body_is_dropped metadataWorld channelURL
      { Channel := some "unstable".toList, AppSlug := "myapp".toList, VersionLabel := none,
        Sequence := none }
      { StatusCode := 200, Header := [], Body := [1, 2, 3] }
      { StatusCode := 404, Header := [], Body := [] }
      rfl rfl rfl (by decide) rfl rfl (Or.inr rfl),
    by decide, rfl⟩

/-- The parts of C14 that hold: when both hosts answer 404 the result is the
built-in `DefaultMetadata`, and a status of 400 or more other than 404 from the
primary host gives an error. -/
theorem metadata_not_found_or_error (w : World) (upstream : URL) (r : ReplicatedUpstream)
    (primary : Response)
    (hparse : parseReplicatedURL upstream = .ok r)
    (hnew1 : w.newRequest "GET".toList (metadataURL "replicated.app".toList r) = none)
    (hdo1 : w.Do { Method := "GET".toList, URL := metadataURL "replicated.app".toList r,
                   Header := [] } = .ok primary) :
    (primary.StatusCode ≥ 400 → primary.StatusCode ≠ 404 →
      ∃ e, GetApplicationMetadata w upstream = .error e) ∧
    (primary.StatusCode = 404 → ∀ fallback : Response,
      w.newRequest "GET".toList (metadataURL "staging.replicated.app".toList r) = none →
      w.Do { Method := "GET".toList, URL := metadataURL "staging.replicated.app".toList r,
             Header := [] } = .ok fallback →
      (fallback.StatusCode = 404 →
        GetApplicationMetadata w upstream = .ok (stringBytes DefaultMetadata)) ∧
      (fallback.StatusCode ≥ 400 → fallback.StatusCode ≠ 404 →
        ∃ e, GetApplicationMetadata w upstream = .error e)) := by
  have e1 := getApplicationMetadataFromHost_eq w _ upstream r primary hparse hnew1 hdo1
  constructor
  · intro hge hne
    rw [if_neg hne, if_pos hge] at e1
    exact ⟨_, by unfold GetApplicationMetadata; rw [e1]⟩
  · intro h404 fallback hnew2 hdo2
    rw [if_pos h404] at e1
    have e2 := getApplicationMetadataFromHost_eq w _ upstream r fallback hparse hnew2 hdo2
    constructor
    · intro hf
      rw [if_pos hf] at e2
      unfold GetApplicationMetadata
      rw [e1]
      simp only [e2]
    · intro hge hne
      rw [if_neg hne, if_pos hge] at e2
      have e3 : GetApplicationMetadata w upstream =
          .error (.wrapped (.errorString
              ("expected result from get request: " ++ toString fallback.StatusCode))
            "failed to get metadata from staging.replicated.app") := by
        unfold GetApplicationMetadata
        rw [e1]
        simp only [e2]
      exact ⟨_, e3⟩

theorem materialize_name (w : World) (u : URL) (license : Option License) (release : Release)
    (upstream : Upstream) (h : materialize w u license release = .ok (.ok upstream)) :
    ∃ application, findAppInRelease w release = .ok application ∧
      upstream.Name = application.Name := by
  unfold materialize at h
  cases happ : findAppInRelease w release with
  | error fault => rw [happ] at h; cases h
  | ok application =>
    refine ⟨application, rfl, ?_⟩
    rw [happ] at h
    simp only at h
    repeat' split at h
    all_goals first
      | (cases h; rfl)
      | cases h

/-- C12, as the spec states it, fails: a local release whose application
descriptor has an empty name is materialised, without error, into an
`Upstream` with an empty `Name`. -/
theorem nameless_application_gives_empty_name :
    downloadReplicated namelessApplicationWorld channelURL "/release".toList none =
      .ok (.ok { URI := "/unstable".toList, Name := [],
                 Files := [{ Path := "app.yaml".toList, Content := [1] }],
                 Type' := "replicated".toList, UpdateCursor := "-1".toList,
                 VersionLabel := [] }) :=
  rfl

/-- C12, amended: every `Upstream` that `downloadReplicated` returns without
error is named after the manifests of the release it was made of: when no
manifest decodes to a `kots.io/v1beta1` `Application`, its `Name` is the
placeholder name `replicated-kots-app`, which is not empty; otherwise its
`Name` is the name of the application descriptor that the first manifest, in
the order of the iteration, decoding to a `kots.io/v1beta1` `Application`
holds, whether that name is empty or not. -/
theorem upstream_named_after_application (w : World) (u : URL) (localPath : GoString)
    (license : Option License) (upstream : Upstream)
    (h : downloadReplicated w u localPath license = .ok (.ok upstream)) :
    ∃ release,
      obtainRelease w u localPath license = .ok (.ok release) ∧
      (((∀ m ∈ release.Manifests, decodesToApplication w m.2 = false) ∧
          upstream.Name = "replicated-kots-app".toList ∧ upstream.Name ≠ []) ∨
        ∃ before manifest after application,
          release.Manifests = before ++ manifest :: after ∧
          (∀ m ∈ before, decodesToApplication w m.2 = false) ∧
          w.decode manifest.2 = .ok (.application application, applicationKind) ∧
          upstream.Name = application.Name) := by
  unfold downloadReplicated at h
  cases hrel : obtainRelease w u localPath license with
  | error fault => rw [hrel] at h; cases h
  | ok res =>
    cases res with
    | error err => rw [hrel] at h; cases h
    | ok release =>
      rw [hrel] at h
      obtain ⟨application, happ, hname⟩ := materialize_name w u license release upstream h
      refine ⟨release, rfl, ?_⟩
      unfold findAppInRelease at happ
      cases hfound : findAppInContents w (release.Manifests.map (fun m => m.2)) with
      | error fault => rw [hfound] at happ; cases happ
      | ok found =>
        cases found with
        | none =>
          rw [hfound] at happ
          cases happ
          refine Or.inl ⟨?_, hname, by rw [hname]; decide⟩
          intro m hm
          exact findAppInContents_none_decodes w _ hfound m.2 (List.mem_map.2 ⟨m, hm, rfl⟩)
        | some a =>
          rw [hfound] at happ
          cases happ
          obtain ⟨before, manifest, after, hsplit, hbefore, hdecode⟩ :=
            findAppInContents_found w release.Manifests application hfound
          exact Or.inr ⟨before, manifest, after, application, hsplit, hbefore, hdecode, hname⟩

theorem upstream_named_after_application_witness :
    downloadReplicated namedApplicationWorld channelURL "/release".toList none =
      .ok (.ok namedApplicationUpstream) ∧
    namedApplicationUpstream.Name = "my-app".toList ∧
    ∃ release,
      obtainRelease namedApplicationWorld channelURL "/release".toList none =
        .ok (.ok release) ∧
      (((∀ m ∈ release.Manifests, decodesToApplication namedApplicationWorld m.2 = false) ∧
          namedApplicationUpstream.Name = "replicated-kots-app".toList ∧
          namedApplicationUpstream.Name ≠ []) ∨
        ∃ before manifest after application,
          release.Manifests = before ++ manifest :: after ∧
          (∀ m ∈ before, decodesToApplication namedApplicationWorld m.2 = false) ∧
          namedApplicationWorld.decode manifest.2 =
            .ok (.application application, applicationKind) ∧
          namedApplicationUpstream.Name = application.Name) :=
  ⟨rfl, rfl, upstream_named_after_application namedApplicationWorld channelURL
    "/release".toList none namedApplicationUpstream rfl⟩

theorem manifestFiles_paths (r : Release) :
    (manifestFiles r).map (fun f => f.Path) = r.Manifests.map (fun m => m.1) := by
  unfold manifestFiles
  rw [List.map_map]
  rfl

theorem nonReserved_paths_nodup (r : Release) (hkeys : (r.Manifests.map (fun m => m.1)).Nodup) :
    ((nonReservedFiles r).map (fun f => f.Path)).Nodup := by
  rw [← manifestFiles_paths] at hkeys
  exact hkeys.sublist (List.Sublist.map _ (List.filter_sublist _))

theorem reserved_paths_nodup (r : Release) (hkeys : (r.Manifests.map (fun m => m.1)).Nodup) :
    ((reservedFiles r).map (fun f => f.Path)).Nodup := by
  rw [← manifestFiles_paths] at hkeys
  exact hkeys.sublist (List.Sublist.map _ (List.filter_sublist _))

theorem stripped_paths_nodup (r : Release) (hkeys : (r.Manifests.map (fun m => m.1)).Nodup)
    (hclean : ∀ f ∈ nonReservedFiles r, CleanPath f.Path) :
    (((nonReservedFiles r).map (stripSegments (removedPrefix r).length)).map
      (fun f => f.Path)).Nodup := by
  have hnd := nonReserved_paths_nodup r hkeys
  have hback : (((nonReservedFiles r).map (stripSegments (removedPrefix r).length)).map
      (fun f => f.Path)).map (fun p => prefixText (removedPrefix r) ++ p) =
      (nonReservedFiles r).map (fun f => f.Path) := by
    rw [List.map_map, List.map_map]
    apply List.map_congr_left
    intro f hf
    have := strip_round_trip f.Path f.Content (removedPrefix r) (hclean f hf)
      ( removedPrefix_prefix r f hf)
    simpa [Function.comp] using this
  rw [← hback] at hnd
  exact List.Nodup.of_map _ hnd

/-- C15, as the spec states it, fails: `app/userdata/config.yaml` next to
`app/x.yaml` loses the segment `app` and comes out with the path of the
reserved file `userdata/config.yaml`; and `a//x.yaml` next to `a/x.yaml` comes
out with the same path `x.yaml`. -/
theorem normalised_paths_collide :
    (shadowedRelease.Manifests.map (fun m => m.1)).Nodup ∧
    releaseToFiles shadowedRelease =
      .ok [{ Path := "userdata/config.yaml".toList, Content := [1] },
        { Path := "x.yaml".toList, Content := [2] },
        { Path := "userdata/config.yaml".toList, Content := [3] }] ∧
    (¬ ∃ files, releaseToFiles shadowedRelease = .ok files ∧
      (files.map (fun f => f.Path)).Nodup) ∧
    (twinRelease.Manifests.map (fun m => m.1)).Nodup ∧
    releaseToFiles twinRelease =
      .ok [{ Path := "x.yaml".toList, Content := [1] },
        { Path := "x.yaml".toList, Content := [2] }] ∧
    ¬ ∃ files, releaseToFiles twinRelease = .ok files ∧
      (files.map (fun f => f.Path)).Nodup := by
  have e1 : releaseToFiles shadowedRelease =
      .ok [{ Path := "userdata/config.yaml".toList, Content := [1] },
        { Path := "x.yaml".toList, Content := [2] },
        { Path := "userdata/config.yaml".toList, Content := [3] }] := by decide
  have e2 : releaseToFiles twinRelease =
      .ok [{ Path := "x.yaml".toList, Content := [1] },
        { Path := "x.yaml".toList, Content := [2] }] := by decide
  refine ⟨by decide, e1, ?_, by decide, e2, ?_⟩
  · rintro ⟨files, h1, h2⟩
    rw [e1] at h1
    cases h1
    revert h2
    decide
  · rintro ⟨files, h1, h2⟩
    rw [e2] at h1
    cases h1
    revert h2
    decide

/-- C15, amended: for every release whose manifest keys are distinct, that has
at least one manifest outside `userdata/`, and whose manifests outside
`userdata/` have clean relative paths, `releaseToFiles` returns the normalised
files followed by the reserved ones; the normalised paths are pairwise
distinct, the reserved paths are pairwise distinct, and all paths together are
pairwise distinct when no normalised path lies under `userdata/`. -/
theorem normalised_paths_distinct (r : Release)
    (hkeys : (r.Manifests.map (fun m => m.1)).Nodup)
    (hsome : nonReservedFiles r ≠ [])
    (hclean : ∀ f ∈ nonReservedFiles r, CleanPath f.Path) :
    ∃ normalised, releaseToFiles r = .ok (normalised ++ reservedFiles r) ∧
      normalised.length = (nonReservedFiles r).length ∧
      (normalised.map (fun f => f.Path)).Nodup ∧
      ((reservedFiles r).map (fun f => f.Path)).Nodup ∧
      ((∀ f ∈ normalised, ¬ underUserdata f.Path) →
        ((normalised ++ reservedFiles r).map (fun f => f.Path)).Nodup) := by
  have heq := releaseToFiles_eq r
  have hn := stripped_paths_nodup r hkeys hclean
  have hr := reserved_paths_nodup r hkeys
  cases hnr : nonReservedFiles r with
  | nil => exact absurd hnr hsome
  | cons first rest =>
    rw [hnr] at heq hn
    simp only at heq
    refine ⟨_, heq, by simp, hn, hr, ?_⟩
    intro hout
    rw [List.map_append, List.nodup_append]
    refine ⟨hn, hr, ?_⟩
    intro p hp1 hp2
    obtain ⟨f, hf, rfl⟩ := List.mem_map.1 hp1
    obtain ⟨g, hg, hgp⟩ := List.mem_map.1 hp2
    have hgu : underUserdata g.Path := by
      unfold reservedFiles at hg
      simpa using (List.mem_filter.1 hg).2
    rw [hgp] at hgu
    exact hout f hf hgu

theorem normalised_paths_distinct_witness :
    (mixedRelease.Manifests.map (fun m => m.1)).Nodup ∧
    nonReservedFiles mixedRelease ≠ [] ∧
    (∀ f ∈ nonReservedFiles mixedRelease, CleanPath f.Path) ∧
    releaseToFiles mixedRelease =
      .ok [{ Path := "a.yaml".toList, Content := [1] },
        { Path := "b/c.yaml".toList, Content := [3] },
        { Path := "userdata/config.yaml".toList, Content := [2] }] ∧
    ∃ normalised, releaseToFiles mixedRelease = .ok (normalised ++ reservedFiles mixedRelease) ∧
      normalised.length = (nonReservedFiles mixedRelease).length ∧
      (normalised.map (fun f => f.Path)).Nodup ∧
      ((reservedFiles mixedRelease).map (fun f => f.Path)).Nodup ∧
      ((∀ f ∈ normalised, ¬ underUserdata f.Path) →
        ((normalised ++ reservedFiles mixedRelease).map (fun f => f.Path)).Nodup) :=
  ⟨by decide, by decide, by decide, by decide,
    normalised_paths_distinct mixedRelease (by decide) (by decide) (by decide)⟩

end Kots
